import Mathlib

/-!
Verification of the contract_parser backend against its specification.

The Python sources are shallowly embedded: strings are `String`/`List Char`,
regex-based text transforms become recursive functions on character lists,
and the block/table data model mirrors the dataclasses in
`document_models.py` / `document_parser.py`.
-/

set_option maxRecDepth 10000

/-! ## Character-level helpers (Python string semantics) -/

/-- Python whitespace characters matched by the regex class \s (ASCII part). -/
def pyWs (c : Char) : Bool :=
  c = ' ' || c = '\t' || c = '\n' || c = '\r' || c = Char.ofNat 11 || c = Char.ofNat 12

/-- Lower-casing covering ASCII and the Cyrillic block, modelling str.casefold /
str.lower for the alphabets this repository handles. -/
def lowerChar (c : Char) : Char :=
  if 0x410 ≤ c.toNat && c.toNat ≤ 0x42F then Char.ofNat (c.toNat + 0x20)
  else if c = Char.ofNat 0x401 then Char.ofNat 0x451
  else c.toLower

/-- Upper-casing covering ASCII and the Cyrillic block, modelling str.upper. -/
def upperChar (c : Char) : Char :=
  if 0x430 ≤ c.toNat && c.toNat ≤ 0x44F then Char.ofNat (c.toNat - 0x20)
  else if c = Char.ofNat 0x451 then Char.ofNat 0x401
  else c.toUpper

/-- Python ch.isalpha for ASCII plus the Cyrillic block. -/
def pyIsAlpha (c : Char) : Bool :=
  c.isAlpha || (0x400 ≤ c.toNat && c.toNat ≤ 0x4FF)

/-- Python ch.isdigit restricted to ASCII digits (the only digits in play). -/
def pyIsDigit (c : Char) : Bool := c.isDigit

/-- Python regex word character \w: letters, digits or underscore. -/
def pyIsWord (c : Char) : Bool := pyIsAlpha c || c.isDigit || c = '_'

/-- Case-folded form of a character list. -/
def foldChars (s : List Char) : List Char := s.map lowerChar

/-- str.casefold / str.lower on strings (adequate for ASCII and Cyrillic). -/
def pyCasefold (s : String) : String := String.mk (foldChars s.data)

/-- Substring containment, modelling the Python `in` operator on str. -/
def hasSubstr (pat : List Char) : List Char → Bool
  | [] => pat.isEmpty
  | c :: rest => pat.isPrefixOf (c :: rest) || hasSubstr pat rest

/-- Substring containment on strings. -/
def strContains (s pat : String) : Bool := hasSubstr pat.data s.data

/-! ## Run collapsing (the re.sub replacements of `_clean_text_noise`)

`re.sub` with a pattern such as `[_]\x7b2,\x7d` replaces each maximal run of at
least `n` occurrences of a character class with a single space.  `collapseGo`
carries the (reversed) currently-open run in `pending`. -/

/-- Flush an accumulated (reversed) run: runs of length at least `n`
become one space, shorter runs are emitted unchanged. -/
def flushRun (n : Nat) (pending : List Char) : List Char :=
  if pending.isEmpty then []
  else if n ≤ pending.length then [' ']
  else pending.reverse

/-- Worker for `collapseRuns`; `pending` is the reversed open run of
characters satisfying `q`. -/
def collapseGo (q : Char → Bool) (n : Nat) : List Char → List Char → List Char
  | pending, [] => flushRun n pending
  | pending, c :: rest =>
    if q c then collapseGo q n (c :: pending) rest
    else flushRun n pending ++ (c :: collapseGo q n [] rest)

/-- Replace each maximal run of at least `n` characters satisfying `q`
with a single space (the semantics of the noise-cleaning re.sub calls). -/
def collapseRuns (q : Char → Bool) (n : Nat) (s : List Char) : List Char :=
  collapseGo q n [] s

/-- Remove trailing characters satisfying `pyWs` (str.rstrip). -/
def trimRight : List Char → List Char
  | [] => []
  | c :: rest =>
    match trimRight rest with
    | [] => if pyWs c then [] else [c]
    | t => c :: t

/-- str.strip on character lists. -/
def pyStripL (s : List Char) : List Char := List.dropWhile pyWs (trimRight s)

/-- str.strip on strings. -/
def pyStrip (s : String) : String := String.mk (pyStripL s.data)

/-! ## Bounded-run invariants

`okRun q n k s` holds when, starting inside a `q`-run of length `k`, the
string `s` never extends any `q`-run to length `n`.  It is the invariant a
collapsed string satisfies and the precondition making collapsing a no-op. -/

/-- No `q`-run in `s` reaches length `n`, given `k` pending `q`-characters. -/
def okRun (q : Char → Bool) (n : Nat) : Nat → List Char → Bool
  | _, [] => true
  | k, c :: rest =>
    if q c then decide (k + 1 < n) && okRun q n (k + 1) rest
    else okRun q n 0 rest

/-- Length of the `q`-run in progress after scanning `s` starting at `k`. -/
def runEnd (q : Char → Bool) : Nat → List Char → Nat
  | k, [] => k
  | k, c :: rest => runEnd q (if q c then k + 1 else 0) rest

theorem okRun_append (q : Char → Bool) (n : Nat) (a b : List Char) :
    ∀ k, okRun q n k (a ++ b) = (okRun q n k a && okRun q n (runEnd q k a) b) := by
  induction a with
  | nil => intro k; simp [okRun, runEnd]
  | cons c rest ih =>
    intro k
    by_cases hc : q c
    · simp [okRun, runEnd, hc, ih, Bool.and_assoc]
    · simp [okRun, runEnd, hc, ih]

theorem okRun_mono (q : Char → Bool) (n : Nat) (s : List Char) :
    ∀ i k, i ≤ k → okRun q n k s = true → okRun q n i s = true := by
  induction s with
  | nil => intro i k _ _; rfl
  | cons c rest ih =>
    intro i k hik h
    by_cases hc : q c
    · simp only [okRun, hc, if_true, Bool.and_eq_true, decide_eq_true_eq] at h ⊢
      exact ⟨Nat.lt_of_le_of_lt (Nat.add_le_add_right hik 1) h.1,
        ih (i + 1) (k + 1) (Nat.add_le_add_right hik 1) h.2⟩
    · simpa [okRun, hc] using h

theorem okRun_of_all_q (q : Char → Bool) (n : Nat) (run : List Char)
    (hall : ∀ c ∈ run, q c = true) :
    ∀ k, k + run.length < n → okRun q n k run = true := by
  induction run with
  | nil => intro k _; rfl
  | cons c rest ih =>
    intro k hk
    have hc : q c = true := hall c (List.mem_cons_self c rest)
    have hrest : ∀ c ∈ rest, q c = true := fun d hd => hall d (List.mem_cons_of_mem c hd)
    simp only [List.length_cons] at hk
    simp only [okRun, hc, if_true, Bool.and_eq_true, decide_eq_true_eq]
    exact ⟨by omega, ih hrest (k + 1) (by omega)⟩

theorem runEnd_of_all_q (q : Char → Bool) (run : List Char)
    (hall : ∀ c ∈ run, q c = true) : ∀ k, runEnd q k run = k + run.length := by
  induction run with
  | nil => intro k; simp [runEnd]
  | cons c rest ih =>
    intro k
    have hc : q c = true := hall c (List.mem_cons_self c rest)
    have hrest : ∀ c ∈ rest, q c = true := fun d hd => hall d (List.mem_cons_of_mem c hd)
    simp [runEnd, hc, ih hrest, List.length_cons]
    omega

theorem okRun_takeWhile_len (q : Char → Bool) (n : Nat) (s : List Char) :
    ∀ k, okRun q n k s = true → s.takeWhile q ≠ [] →
      k + (s.takeWhile q).length < n := by
  induction s with
  | nil => intro k _ h; simp [List.takeWhile] at h
  | cons c rest ih =>
    intro k hok hne
    by_cases hc : q c
    · simp only [okRun, hc, if_true, Bool.and_eq_true, decide_eq_true_eq] at hok
      by_cases hr : rest.takeWhile q = []
      · simp [List.takeWhile_cons, hc, hr]
        omega
      · have := ih (k + 1) hok.2 hr
        simp [List.takeWhile_cons, hc, List.length_cons]
        omega
    · simp [List.takeWhile_cons, hc] at hne

/-- `okRun` at any start counter agrees with counter 0 when the list is empty
or starts with a non-`q` character. -/
theorem okRun_indep_head (q : Char → Bool) (n : Nat) (s : List Char)
    (h : s = [] ∨ ∃ d t, s = d :: t ∧ q d = false) :
    ∀ j, okRun q n j s = okRun q n 0 s := by
  intro j
  rcases h with h | ⟨d, t, rfl, hd⟩
  · subst h; rfl
  · simp [okRun, hd]

/-! ## Structural lemmas for `collapseRuns` -/

theorem collapseRuns_nil (q : Char → Bool) (n : Nat) : collapseRuns q n [] = [] := rfl

theorem collapseRuns_cons_neg (q : Char → Bool) (n : Nat) (c : Char) (rest : List Char)
    (hc : q c = false) :
    collapseRuns q n (c :: rest) = c :: collapseRuns q n rest := by
  simp [collapseRuns, collapseGo, hc, flushRun]

theorem collapseGo_pending (q : Char → Bool) (n : Nat) (s : List Char) :
    ∀ pending, pending ≠ [] →
      collapseGo q n pending s =
        (if n ≤ (pending.reverse ++ s.takeWhile q).length then [' ']
         else pending.reverse ++ s.takeWhile q) ++ collapseGo q n [] (s.dropWhile q) := by
  induction s with
  | nil =>
    intro pending hne
    simp only [collapseGo, List.takeWhile_nil, List.dropWhile_nil, List.append_nil]
    simp [flushRun, List.isEmpty_iff, hne, collapseGo]
  | cons c rest ih =>
    intro pending hne
    by_cases hc : q c
    · have step : collapseGo q n pending (c :: rest) = collapseGo q n (c :: pending) rest := by
        simp [collapseGo, hc]
      rw [step, ih (c :: pending) (by simp)]
      simp [List.takeWhile_cons, List.dropWhile_cons, hc]
    · have step : collapseGo q n pending (c :: rest) =
          flushRun n pending ++ (c :: collapseGo q n [] rest) := by
        simp [collapseGo, hc]
      rw [step]
      have hflush : flushRun n pending =
          if n ≤ pending.reverse.length then [' '] else pending.reverse := by
        simp [flushRun, List.isEmpty_iff, hne, List.length_reverse]
      rw [hflush]
      have : collapseGo q n [] (c :: rest) = c :: collapseGo q n [] rest := by
        simp [collapseGo, hc, flushRun]
      simp [List.takeWhile_cons, List.dropWhile_cons, hc, this]

theorem collapseRuns_cons_pos (q : Char → Bool) (n : Nat) (c : Char) (rest : List Char)
    (hc : q c = true) :
    collapseRuns q n (c :: rest) =
      (if n ≤ ((c :: rest).takeWhile q).length then [' ']
       else (c :: rest).takeWhile q) ++ collapseRuns q n ((c :: rest).dropWhile q) := by
  have step : collapseRuns q n (c :: rest) = collapseGo q n [c] rest := by
    simp [collapseRuns, collapseGo, hc]
  rw [step, collapseGo_pending q n rest [c] (by simp)]
  simp [collapseRuns, List.takeWhile_cons, List.dropWhile_cons, hc]

theorem takeWhile_all_q (q : Char → Bool) (s : List Char) :
    ∀ c ∈ s.takeWhile q, q c = true := by
  intro c hc
  exact List.mem_takeWhile_imp hc

theorem dropWhile_shape (q : Char → Bool) (s : List Char) :
    s.dropWhile q = [] ∨ ∃ d t, s.dropWhile q = d :: t ∧ q d = false := by
  induction s with
  | nil => left; rfl
  | cons c rest ih =>
    by_cases hc : q c
    · simpa [List.dropWhile_cons, hc] using ih
    · right; exact ⟨c, rest, by simp [List.dropWhile_cons, hc], by simpa using hc⟩

theorem length_dropWhile_lt (q : Char → Bool) (c : Char) (rest : List Char) (hc : q c = true) :
    ((c :: rest).dropWhile q).length < (c :: rest).length := by
  have h := congrArg List.length (List.takeWhile_append_dropWhile q (c :: rest))
  have htw : (c :: rest).takeWhile q = c :: rest.takeWhile q := by
    simp [List.takeWhile_cons, hc]
  rw [htw] at h
  simp only [List.length_append, List.length_cons] at h ⊢
  omega

theorem collapseRuns_eq_self_aux (q : Char → Bool) (n : Nat) :
    ∀ len (s : List Char), s.length ≤ len → okRun q n 0 s = true →
      collapseRuns q n s = s := by
  intro len
  induction len with
  | zero =>
    intro s hs _
    have : s = [] := List.eq_nil_of_length_eq_zero (Nat.le_zero.mp hs)
    subst this; rfl
  | succ m ih =>
    intro s hs hok
    match s with
    | [] => rfl
    | c :: rest =>
      by_cases hc : q c
      · rw [collapseRuns_cons_pos q n c rest (by simpa using hc)]
        have htw : (c :: rest).takeWhile q ≠ [] := by
          simp [List.takeWhile_cons, hc]
        have hlen := okRun_takeWhile_len q n (c :: rest) 0 hok htw
        rw [if_neg (by omega)]
        have hsplit : (c :: rest).takeWhile q ++ (c :: rest).dropWhile q = c :: rest :=
          List.takeWhile_append_dropWhile q (c :: rest)
        have hok2 : okRun q n 0 ((c :: rest).dropWhile q) = true := by
          have happ := okRun_append q n ((c :: rest).takeWhile q) ((c :: rest).dropWhile q) 0
          rw [hsplit] at happ
          rw [happ] at hok
          exact okRun_mono q n _ 0 _ (Nat.zero_le _) (Bool.and_elim_right hok)
        have hdec := length_dropWhile_lt q c rest (by simpa using hc)
        have hle : ((c :: rest).dropWhile q).length ≤ m := by
          simp only [List.length_cons] at hdec hs; omega
        rw [ih _ hle hok2]
        exact hsplit
      · rw [collapseRuns_cons_neg q n c rest (by simpa using hc)]
        have hok2 : okRun q n 0 rest = true := by
          simpa [okRun, hc] using hok
        have hle : rest.length ≤ m := by
          simp only [List.length_cons] at hs; omega
        rw [ih rest hle hok2]

/-- Collapsing is the identity on strings whose `q`-runs are already shorter
than `n`. -/
theorem collapseRuns_eq_self (q : Char → Bool) (n : Nat) (s : List Char)
    (hok : okRun q n 0 s = true) : collapseRuns q n s = s :=
  collapseRuns_eq_self_aux q n s.length s le_rfl hok

theorem collapseRuns_shape (q : Char → Bool) (n : Nat) (c : Char) (rest : List Char)
    (hc : q c = false) :
    ∃ t, collapseRuns q n (c :: rest) = c :: t := by
  exact ⟨collapseRuns q n rest, collapseRuns_cons_neg q n c rest hc⟩

/-- The head of a collapsed list is either absent, a space, or a non-`q`
character when the input starts empty / with a non-`q` character. -/
theorem collapseRuns_head_shape (q : Char → Bool) (n : Nat) (s : List Char)
    (h : s = [] ∨ ∃ d t, s = d :: t ∧ q d = false) :
    collapseRuns q n s = [] ∨
      ∃ d t, collapseRuns q n s = d :: t ∧ q d = false := by
  rcases h with rfl | ⟨d, t, rfl, hd⟩
  · left; rfl
  · right; exact ⟨d, collapseRuns q n t, collapseRuns_cons_neg q n d t hd, hd⟩

theorem okRun_collapseRuns_aux (q : Char → Bool) (n : Nat)
    (hspace : q ' ' = false ∨ n = 2) (hn : 1 ≤ n) :
    ∀ len (s : List Char), s.length ≤ len →
      okRun q (max n 2) 0 (collapseRuns q n s) = true := by
  intro len
  induction len with
  | zero =>
    intro s hs
    have : s = [] := List.eq_nil_of_length_eq_zero (Nat.le_zero.mp hs)
    subst this; rfl
  | succ m ih =>
    intro s hs
    match s with
    | [] => rfl
    | c :: rest =>
      by_cases hc : q c
      · rw [collapseRuns_cons_pos q n c rest (by simpa using hc)]
        set run := (c :: rest).takeWhile q with hrun
        set tl := (c :: rest).dropWhile q with htl
        have hdec := length_dropWhile_lt q c rest (by simpa using hc)
        rw [← htl] at hdec
        have hle : tl.length ≤ m := by
          simp only [List.length_cons] at hdec hs; omega
        have hih := ih tl hle
        have htlshape := dropWhile_shape q (c :: rest)
        rw [← htl] at htlshape
        have houtshape := collapseRuns_head_shape q n tl htlshape
        have hindep : ∀ j, okRun q (max n 2) j (collapseRuns q n tl) =
            okRun q (max n 2) 0 (collapseRuns q n tl) :=
          okRun_indep_head q (max n 2) (collapseRuns q n tl) houtshape
        by_cases hbig : n ≤ run.length
        · rw [if_pos hbig, List.singleton_append]
          by_cases hsp : q ' '
          · rcases hspace with hfalse | hn2
            · rw [hsp] at hfalse; exact absurd hfalse (by simp)
            · subst hn2
              simp only [okRun, hsp, if_true]
              rw [hindep, hih]
              simp
          · simp only [okRun, hsp, Bool.false_eq_true, if_false]
            exact hih
        · rw [if_neg hbig]
          push_neg at hbig
          have hallq : ∀ d ∈ run, q d = true := takeWhile_all_q q (c :: rest)
          rw [okRun_append]
          have h1 : okRun q (max n 2) 0 run = true :=
            okRun_of_all_q q (max n 2) run hallq 0
              (by simp only [Nat.zero_add]; omega)
          have h2 : runEnd q 0 run = run.length := by
            simpa using runEnd_of_all_q q run hallq 0
          rw [h1, h2, hindep run.length, hih]
          rfl
      · rw [collapseRuns_cons_neg q n c rest (by simpa using hc)]
        have hle : rest.length ≤ m := by
          simp only [List.length_cons] at hs; omega
        simpa [okRun, hc] using ih rest hle

/-- After collapsing `q`-runs at threshold `n` (with `n = 2` whenever the
inserted space itself satisfies `q`), no `q`-run of length `max n 2` remains. -/
theorem okRun_collapseRuns (q : Char → Bool) (n : Nat)
    (hspace : q ' ' = false ∨ n = 2) (hn : 1 ≤ n) (s : List Char) :
    okRun q (max n 2) 0 (collapseRuns q n s) = true :=
  okRun_collapseRuns_aux q n hspace hn s.length s le_rfl

theorem okRun_collapseRuns_preserve_aux (q₂ q : Char → Bool) (n₂ n : Nat)
    (hsp : q₂ ' ' = false) :
    ∀ len (s : List Char), s.length ≤ len →
      ∀ k, okRun q₂ n₂ k s = true → okRun q₂ n₂ k (collapseRuns q n s) = true := by
  intro len
  induction len with
  | zero =>
    intro s hs k hok
    have : s = [] := List.eq_nil_of_length_eq_zero (Nat.le_zero.mp hs)
    subst this; rfl
  | succ m ih =>
    intro s hs k hok
    match s with
    | [] => rfl
    | c :: rest =>
      by_cases hc : q c
      · rw [collapseRuns_cons_pos q n c rest (by simpa using hc)]
        set run := (c :: rest).takeWhile q with hrun
        set tl := (c :: rest).dropWhile q with htl
        have hdec := length_dropWhile_lt q c rest (by simpa using hc)
        rw [← htl] at hdec
        have hle : tl.length ≤ m := by
          simp only [List.length_cons] at hdec hs; omega
        have hsplit : run ++ tl = c :: rest := List.takeWhile_append_dropWhile q (c :: rest)
        have hrw := okRun_append q₂ n₂ run tl k
        rw [hsplit] at hrw
        rw [hrw, Bool.and_eq_true] at hok
        by_cases hbig : n ≤ run.length
        · rw [if_pos hbig]
          have htl0 : okRun q₂ n₂ 0 tl = true :=
            okRun_mono q₂ n₂ tl 0 _ (Nat.zero_le _) hok.2
          have hout0 : okRun q₂ n₂ 0 (collapseRuns q n tl) = true := ih tl hle 0 htl0
          simp only [List.singleton_append, okRun, hsp, Bool.false_eq_true, if_false]
          exact hout0
        · rw [if_neg hbig]
          rw [okRun_append, hok.1, Bool.true_and]
          exact ih tl hle (runEnd q₂ k run) hok.2
      · rw [collapseRuns_cons_neg q n c rest (by simpa using hc)]
        have hle : rest.length ≤ m := by
          simp only [List.length_cons] at hs; omega
        by_cases hc2 : q₂ c
        · simp only [okRun, hc2, if_true, Bool.and_eq_true] at hok ⊢
          exact ⟨hok.1, ih rest hle (k + 1) hok.2⟩
        · simp only [okRun, hc2, Bool.false_eq_true, if_false] at hok ⊢
          exact ih rest hle 0 hok

/-- Collapsing runs of one class preserves run-boundedness of any class not
containing the space character. -/
theorem okRun_collapseRuns_preserve (q₂ q : Char → Bool) (n₂ n : Nat)
    (hsp : q₂ ' ' = false) (s : List Char) (hok : okRun q₂ n₂ 0 s = true) :
    okRun q₂ n₂ 0 (collapseRuns q n s) = true :=
  okRun_collapseRuns_preserve_aux q₂ q n₂ n hsp s.length s le_rfl 0 hok

theorem mem_collapseRuns_aux (q : Char → Bool) (n : Nat) :
    ∀ len (s : List Char), s.length ≤ len →
      ∀ c ∈ collapseRuns q n s, c ∈ s ∨ c = ' ' := by
  intro len
  induction len with
  | zero =>
    intro s hs c hc
    have : s = [] := List.eq_nil_of_length_eq_zero (Nat.le_zero.mp hs)
    subst this; simp [collapseRuns, collapseGo, flushRun] at hc
  | succ m ih =>
    intro s hs c hc
    match s with
    | [] => simp [collapseRuns, collapseGo, flushRun] at hc
    | d :: rest =>
      by_cases hd : q d
      · rw [collapseRuns_cons_pos q n d rest (by simpa using hd)] at hc
        set run := (d :: rest).takeWhile q with hrun
        set tl := (d :: rest).dropWhile q with htl
        have hdec := length_dropWhile_lt q d rest (by simpa using hd)
        rw [← htl] at hdec
        have hle : tl.length ≤ m := by
          simp only [List.length_cons] at hdec hs; omega
        have hsub1 : ∀ x ∈ run, x ∈ d :: rest := fun x hx =>
          List.Sublist.mem hx (List.takeWhile_sublist q)
        have hsub2 : ∀ x ∈ tl, x ∈ d :: rest := fun x hx =>
          List.Sublist.mem hx (List.dropWhile_sublist q)
        rcases List.mem_append.mp hc with hin | hin
        · by_cases hbig : n ≤ run.length
          · rw [if_pos hbig] at hin
            right; simpa using hin
          · rw [if_neg hbig] at hin
            left; exact hsub1 c hin
        · rcases ih tl hle c hin with hin2 | hin2
          · left; exact hsub2 c hin2
          · right; exact hin2
      · rw [collapseRuns_cons_neg q n d rest (by simpa using hd)] at hc
        have hle : rest.length ≤ m := by
          simp only [List.length_cons] at hs; omega
        rcases List.mem_cons.mp hc with rfl | hin
        · left; exact List.mem_cons_self _ _
        · rcases ih rest hle c hin with hin2 | hin2
          · left; exact List.mem_cons_of_mem d hin2
          · right; exact hin2

/-- Every character of a collapsed list came from the input or is a space. -/
theorem mem_collapseRuns (q : Char → Bool) (n : Nat) (s : List Char) :
    ∀ c ∈ collapseRuns q n s, c ∈ s ∨ c = ' ' :=
  mem_collapseRuns_aux q n s.length s le_rfl


/-! ## Lemmas about `trimRight` / `pyStripL` -/

/-- No trailing whitespace character. -/
def noTrailWs (s : List Char) : Prop := ∀ c, s.getLast? = some c → pyWs c = false

/-- No leading whitespace character. -/
def noLeadWs (s : List Char) : Prop := ∀ c t, s = c :: t → pyWs c = false

theorem trimRight_cons_nil (c : Char) (rest : List Char) (h : trimRight rest = []) :
    trimRight (c :: rest) = if pyWs c then [] else [c] := by
  simp only [trimRight, h]

theorem trimRight_cons_cons (c x : Char) (rest xs : List Char) (h : trimRight rest = x :: xs) :
    trimRight (c :: rest) = c :: x :: xs := by
  simp only [trimRight, h]

theorem trimRight_prefix (s : List Char) : ∃ b, s = trimRight s ++ b := by
  induction s with
  | nil => exact ⟨[], rfl⟩
  | cons c rest ih =>
    rcases ih with ⟨b, hb⟩
    cases ht : trimRight rest with
    | nil =>
      by_cases hws : pyWs c
      · exact ⟨c :: rest, by rw [trimRight_cons_nil c rest ht, if_pos hws]; rfl⟩
      · exact ⟨rest, by rw [trimRight_cons_nil c rest ht, if_neg hws]; rfl⟩
    | cons x xs =>
      refine ⟨b, ?_⟩
      rw [trimRight_cons_cons c x rest xs ht, ← ht, List.cons_append, ← hb]

theorem trimRight_noTrail (s : List Char) : noTrailWs (trimRight s) := by
  induction s with
  | nil => intro c h; simp [trimRight] at h
  | cons c rest ih =>
    intro d hd
    cases ht : trimRight rest with
    | nil =>
      rw [trimRight_cons_nil c rest ht] at hd
      by_cases hws : pyWs c
      · rw [if_pos hws] at hd; simp at hd
      · rw [if_neg hws] at hd
        simp only [List.getLast?_singleton, Option.some.injEq] at hd
        subst hd; simpa using hws
    | cons x xs =>
      rw [trimRight_cons_cons c x rest xs ht, List.getLast?_cons_cons, ← ht] at hd
      exact ih d hd

theorem trimRight_eq_self (s : List Char) (h : noTrailWs s) : trimRight s = s := by
  induction s with
  | nil => rfl
  | cons c rest ih =>
    cases hr : rest with
    | nil =>
      subst hr
      have hc : pyWs c = false := h c rfl
      rw [trimRight_cons_nil c [] rfl, hc]
      rfl
    | cons x xs =>
      subst hr
      have hrest : noTrailWs (x :: xs) := by
        intro d hd
        exact h d (by rw [List.getLast?_cons_cons]; exact hd)
      have heq : trimRight (x :: xs) = x :: xs := ih hrest
      rw [trimRight_cons_cons c x (x :: xs) xs heq]

theorem okRun_append_left (q : Char → Bool) (n : Nat) (a b : List Char)
    (h : okRun q n 0 (a ++ b) = true) : okRun q n 0 a = true := by
  rw [okRun_append] at h
  exact Bool.and_elim_left h

theorem okRun_append_right (q : Char → Bool) (n : Nat) (a b : List Char) (k : Nat)
    (h : okRun q n k (a ++ b) = true) : okRun q n 0 b = true := by
  rw [okRun_append] at h
  exact okRun_mono q n b 0 _ (Nat.zero_le _) (Bool.and_elim_right h)

theorem okRun_pyStripL (q : Char → Bool) (n : Nat) (s : List Char)
    (h : okRun q n 0 s = true) : okRun q n 0 (pyStripL s) = true := by
  rcases trimRight_prefix s with ⟨b, hb⟩
  have h1 : okRun q n 0 (trimRight s) = true := by
    rw [hb] at h
    exact okRun_append_left q n (trimRight s) b h
  have hsplit : (trimRight s).takeWhile pyWs ++ (trimRight s).dropWhile pyWs = trimRight s :=
    List.takeWhile_append_dropWhile pyWs (trimRight s)
  rw [← hsplit] at h1
  exact okRun_append_right q n _ _ 0 h1

theorem mem_pyStripL (s : List Char) : ∀ c ∈ pyStripL s, c ∈ s := by
  intro c hc
  rcases trimRight_prefix s with ⟨b, hb⟩
  have h1 : c ∈ trimRight s :=
    List.Sublist.mem hc (List.dropWhile_sublist pyWs)
  rw [hb]
  exact List.mem_append_left b h1

theorem noLeadWs_pyStripL (s : List Char) : noLeadWs (pyStripL s) := by
  intro c t hct
  rcases dropWhile_shape pyWs (trimRight s) with hnil | ⟨d, u, hdu, hd⟩
  · rw [pyStripL] at hct; rw [hnil] at hct; exact absurd hct (by simp)
  · rw [pyStripL] at hct; rw [hdu] at hct
    injection hct with h1 _
    subst h1; exact hd

theorem getLast?_suffix (a b : List Char) (hb : b ≠ []) :
    (a ++ b).getLast? = b.getLast? := by
  rw [List.getLast?_append]
  cases hlast : b.getLast? with
  | none => exact absurd (List.getLast?_eq_none_iff.mp hlast) hb
  | some x => rfl

theorem noTrailWs_pyStripL (s : List Char) : noTrailWs (pyStripL s) := by
  intro c hc
  by_cases hnil : pyStripL s = []
  · rw [hnil] at hc; simp at hc
  · have hsplit : (trimRight s).takeWhile pyWs ++ (trimRight s).dropWhile pyWs = trimRight s :=
      List.takeWhile_append_dropWhile pyWs (trimRight s)
    have : (trimRight s).getLast? = (pyStripL s).getLast? := by
      rw [← hsplit]
      exact getLast?_suffix _ _ hnil
    exact trimRight_noTrail s c (by rw [this]; exact hc)

theorem pyStripL_eq_self (s : List Char) (hlead : noLeadWs s) (htrail : noTrailWs s) :
    pyStripL s = s := by
  rw [pyStripL, trimRight_eq_self s htrail]
  cases s with
  | nil => rfl
  | cons c t =>
    have hc : pyWs c = false := hlead c t rfl
    simp [List.dropWhile_cons, hc]

/-! ## `_clean_text_noise` (document_parser.py / document_text.py)

The Python function applies, in order: removal of guillemet quotes,
collapsing of 2+ underscores, 3+ hyphens, 3+ periods and 2+ whitespace
characters (each run replaced by one space), then strips the ends. -/

/-- Guillemet quote characters removed by the first re.sub. -/
def isGuillemet (c : Char) : Bool := c = '«' || c = '»'

/-- The character class of the underscore-collapsing re.sub. -/
def isUnder (c : Char) : Bool := c = '_'

/-- The character class of the hyphen-collapsing re.sub. -/
def isDash (c : Char) : Bool := c = '-'

/-- The character class of the period-collapsing re.sub. -/
def isDot (c : Char) : Bool := c = '.'

/-- Character-list form of `_clean_text_noise`. -/
def cleanCharsNoise (s : List Char) : List Char :=
  pyStripL (collapseRuns pyWs 2 (collapseRuns isDot 3 (collapseRuns isDash 3
    (collapseRuns isUnder 2 (s.filter (fun c => !isGuillemet c))))))

/-- `_clean_text_noise` from `document_parser.py` (identical in
`document_text.py` / `document_processing.py`). -/
def _clean_text_noise (s : String) : String := String.mk (cleanCharsNoise s.data)

theorem cleanCharsNoise_idem (s : List Char) :
    cleanCharsNoise (cleanCharsNoise s) = cleanCharsNoise s := by
  have hUsp : isUnder ' ' = false := by decide
  have hDsp : isDash ' ' = false := by decide
  have hDotsp : isDot ' ' = false := by decide
  set s0 := s.filter (fun c => !isGuillemet c) with hs0
  set s1 := collapseRuns isUnder 2 s0 with hs1
  set s2 := collapseRuns isDash 3 s1 with hs2
  set s3 := collapseRuns isDot 3 s2 with hs3
  set s4 := collapseRuns pyWs 2 s3 with hs4
  set t := pyStripL s4 with ht
  have hmem : ∀ c ∈ t, c ∈ s0 ∨ c = ' ' := by
    intro c hc
    have h4 : c ∈ s4 := mem_pyStripL s4 c hc
    rcases mem_collapseRuns pyWs 2 s3 c h4 with h3 | hsp
    · rcases mem_collapseRuns isDot 3 s2 c h3 with h2 | hsp
      · rcases mem_collapseRuns isDash 3 s1 c h2 with h1 | hsp
        · rcases mem_collapseRuns isUnder 2 s0 c h1 with h0 | hsp
          · exact Or.inl h0
          · exact Or.inr hsp
        · exact Or.inr hsp
      · exact Or.inr hsp
    · exact Or.inr hsp
  have hG : ∀ c ∈ t, (!isGuillemet c) = true := by
    intro c hc
    rcases hmem c hc with h0 | rfl
    · exact (List.mem_filter.mp h0).2
    · decide
  have hU : okRun isUnder 2 0 t = true := by
    have h1 : okRun isUnder 2 0 s1 = true := by
      have := okRun_collapseRuns isUnder 2 (Or.inl hUsp) (by norm_num) s0
      simpa using this
    have h2 := okRun_collapseRuns_preserve isUnder isDash 2 3 hUsp s1 h1
    have h3 := okRun_collapseRuns_preserve isUnder isDot 2 3 hUsp s2 h2
    have h4 := okRun_collapseRuns_preserve isUnder pyWs 2 2 hUsp s3 h3
    exact okRun_pyStripL isUnder 2 s4 h4
  have hD : okRun isDash 3 0 t = true := by
    have h2 : okRun isDash 3 0 s2 = true := by
      have := okRun_collapseRuns isDash 3 (Or.inl hDsp) (by norm_num) s1
      simpa using this
    have h3 := okRun_collapseRuns_preserve isDash isDot 3 3 hDsp s2 h2
    have h4 := okRun_collapseRuns_preserve isDash pyWs 3 2 hDsp s3 h3
    exact okRun_pyStripL isDash 3 s4 h4
  have hDot : okRun isDot 3 0 t = true := by
    have h3 : okRun isDot 3 0 s3 = true := by
      have := okRun_collapseRuns isDot 3 (Or.inl hDotsp) (by norm_num) s2
      simpa using this
    have h4 := okRun_collapseRuns_preserve isDot pyWs 3 2 hDotsp s3 h3
    exact okRun_pyStripL isDot 3 s4 h4
  have hW : okRun pyWs 2 0 t = true := by
    have h4 : okRun pyWs 2 0 s4 = true := by
      have := okRun_collapseRuns pyWs 2 (Or.inr rfl) (by norm_num) s3
      simpa using this
    exact okRun_pyStripL pyWs 2 s4 h4
  have hfilter : t.filter (fun c => !isGuillemet c) = t := List.filter_eq_self.mpr hG
  show pyStripL (collapseRuns pyWs 2 (collapseRuns isDot 3 (collapseRuns isDash 3
    (collapseRuns isUnder 2 (t.filter (fun c => !isGuillemet c)))))) = t
  rw [hfilter,
    collapseRuns_eq_self isUnder 2 t hU,
    collapseRuns_eq_self isDash 3 t hD,
    collapseRuns_eq_self isDot 3 t hDot,
    collapseRuns_eq_self pyWs 2 t hW,
    pyStripL_eq_self t (noLeadWs_pyStripL s4) (noTrailWs_pyStripL s4)]

/-- C6: the noise-cleaning transform of `_clean_text_noise` (remove
guillemets, collapse underscore/hyphen/period/whitespace runs, trim) is
idempotent: applying it twice equals applying it once, for every string. -/
theorem clean_text_noise_idempotent (s : String) :
    _clean_text_noise (_clean_text_noise s) = _clean_text_noise s := by
  show String.mk (cleanCharsNoise (cleanCharsNoise s.data)) =
    String.mk (cleanCharsNoise s.data)
  rw [cleanCharsNoise_idem]

/-! ## Document block model (document_models.py / document_parser.py) -/

/-- The closed two-value block-type enumeration. -/
inductive BlockType where
  | paragraph : BlockType
  | table : BlockType
deriving DecidableEq

/-- A normalized representation of a document block. -/
structure Block where
  type : BlockType
  text : String
  rows : Option (List (List String)) := none
deriving DecidableEq

/-- A contiguous table fragment inside the specification. -/
structure TableRegion where
  index : Nat
  start_index : Nat
  end_index : Nat
  block : Block
deriving DecidableEq

/-- Information about the located specification block. -/
structure SpecificationResult where
  heading : String
  start_index : Nat
  end_index : Nat
  tables : List TableRegion
  start_block : Block
  end_block : Block
deriving DecidableEq

/-! ## Heuristic locator (`document_parser.py`) -/

/-- Counter for Python str.split() token counting; the flag records whether
the scan is inside a token. -/
def countTokens : Bool → List Char → Nat
  | _, [] => 0
  | inTok, c :: rest =>
    if pyWs c then countTokens false rest
    else (if inTok then 0 else 1) + countTokens true rest

/-- Number of whitespace-separated words, len(text.split()). -/
def wordCount (s : String) : Nat := countTokens false s.data

/-- Space-join of a list of strings. -/
def joinSpace (cells : List String) : String :=
  String.intercalate (String.mk [' ']) cells

def patSpecRoot : String := "спецификац"

def patSpecCap : String := "Спецификация"

def patPrilozhenie : String := "Приложение"

/-- SPEC_PATTERNS from `_find_spec_heading`. -/
def SPEC_PATTERNS : List String :=
  ["спецификац", "спецификация №", "приложение №", "приложение к договору"]

/-- END_PATTERNS from `_locate_specification`. -/
def END_PATTERNS : List String := ["общая сумма"]

/-- The inline keyword list filtering tables in `_locate_specification`. -/
def LOCATE_TABLE_KEYWORDS : List String := ["наименован", "ед.", "кол", "цена", "сумм"]

/-- `_looks_like_heading` from `document_parser.py`. -/
def _looks_like_heading (text : String) : Bool :=
  let normalized := pyStripL text.data
  if normalized.isEmpty then false
  else if normalized.length ≤ 80 && normalized == normalized.map upperChar then true
  else if normalized.getLast? == some ':' && normalized.length ≤ 120 then true
  else patPrilozhenie.data.isPrefixOf normalized

/-- The paragraph-and-pattern part of the candidate test inside
`_find_spec_heading` (everything except the table look-ahead). -/
def isSpecHeadingParagraph (b : Block) : Bool :=
  b.type == BlockType.paragraph &&
    (let text := pyCasefold b.text
     !(decide (wordCount text > 8) && strContains text patSpecRoot) &&
     SPEC_PATTERNS.any (fun p => strContains text p))

/-- The table look-ahead of `_find_spec_heading`: a table block occurs at
one of the at most five positions following `idx`. -/
def hasTableWithin5 (blocks : List Block) (idx : Nat) : Bool :=
  (List.range' (idx + 1) (min (idx + 6) blocks.length - (idx + 1))).any
    (fun j =>
      match blocks[j]? with
      | some b => b.type == BlockType.table
      | none => false)

/-- Membership of `idx` in the `candidates` list of `_find_spec_heading`. -/
def isHeadingCandidate (blocks : List Block) (idx : Nat) : Bool :=
  match blocks[idx]? with
  | none => false
  | some b => isSpecHeadingParagraph b && hasTableWithin5 blocks idx

/-- `_find_spec_heading`: collect candidate indices in order and return the
last one (`candidates[-1]`). -/
def _find_spec_heading (blocks : List Block) : Option Nat :=
  ((List.range blocks.length).filter (fun idx => isHeadingCandidate blocks idx)).getLast?

/-- Flattened lower-cased text of a table's rows, as built inline in
`_locate_specification`. -/
def flatTableText (rows : List (List String)) : String :=
  pyCasefold (joinSpace (rows.map joinSpace))

/-- The keyword filter applied to each table in `_locate_specification`. -/
def locateTableQualifies (b : Block) : Bool :=
  LOCATE_TABLE_KEYWORDS.any (fun kw => strContains (flatTableText (b.rows.getD [])) kw)

/-- The loop state of `_locate_specification`. -/
structure ScanState where
  first_table : Option Nat
  last_table : Option Nat
  collected : List TableRegion
deriving DecidableEq

/-- The forward scan loop of `_locate_specification`, iterating over the
remaining block indices; returning the state models `break`. -/
def specScan (blocks : List Block) : List Nat → ScanState → ScanState
  | [], st => st
  | idx :: rest, st =>
    match blocks[idx]? with
    | none => st
    | some b =>
      match b.type with
      | BlockType.paragraph =>
        if END_PATTERNS.any (fun p => strContains (pyCasefold b.text) p) then st
        else if b.text = String.mk [] then specScan blocks rest st
        else if st.last_table.isSome && _looks_like_heading b.text then st
        else specScan blocks rest st
      | BlockType.table =>
        if locateTableQualifies b then
          specScan blocks rest
            { first_table := some (st.first_table.getD idx)
              last_table := some idx
              collected := st.collected ++ [⟨idx, idx, idx, b⟩] }
        else if st.first_table.isSome then st
        else specScan blocks rest st

/-- `_locate_specification` from `document_parser.py`. -/
def _locate_specification (blocks : List Block) : Option SpecificationResult :=
  match _find_spec_heading blocks with
  | none => none
  | some heading_index =>
    let st := specScan blocks
      (List.range' (heading_index + 1) (blocks.length - (heading_index + 1)))
      ⟨none, none, []⟩
    match st.first_table, st.last_table with
    | some _, some last =>
      match blocks[heading_index]?, blocks[last]? with
      | some hb, some lb =>
        let heading_text := if hb.text = String.mk [] then patSpecCap else hb.text
        some ⟨heading_text, heading_index, last, st.collected, hb, lb⟩
      | _, _ => none
    | _, _ => none

/-- The error cases of `extract_specification` in `document_parser.py`. -/
inductive DocumentError where
  | unsupported : DocumentError
  | notFound : DocumentError
deriving DecidableEq

/-- The block-level tail of `extract_specification` in `document_parser.py`
(lines 88-92): a missing locator result becomes the not-found ValueError. -/
def extract_specification_blocks (blocks : List Block) :
    Except DocumentError SpecificationResult :=
  match _locate_specification blocks with
  | none => Except.error DocumentError.notFound
  | some result => Except.ok result

/-! ## Example documents used to settle the locator claims -/

/-- Paragraph block constructor (mirrors Block(type="paragraph", text=...)). -/
def paraBlock (t : String) : Block := ⟨BlockType.paragraph, t, none⟩

/-- Table block constructor (mirrors Block(type="table", text="", rows=...)). -/
def tableBlock (r : List (List String)) : Block := ⟨BlockType.table, String.mk [], some r⟩

/-- A specification heading at index 0, an appendix heading at index 2,
each followed by a qualifying table. -/
def exC1 : List Block :=
  [paraBlock ("Спецификация"), tableBlock [[("цена"), ("100")]],
   paraBlock ("Приложение №1"), tableBlock [[("цена"), ("200")]]]

/-- A document whose first table is followed by an "Общая цена" paragraph
and a further qualifying table. -/
def exC2 : List Block :=
  [paraBlock ("Спецификация"), tableBlock [[("цена"), ("100")]],
   paraBlock ("Общая цена: 4700 руб."), tableBlock [[("цена"), ("200")]]]

/-- A document whose first table is followed by an "Общая сумма" paragraph
and a further qualifying table. -/
def exC2sum : List Block :=
  [paraBlock ("Спецификация"), tableBlock [[("цена"), ("100")]],
   paraBlock ("Общая сумма: 4700 руб."), tableBlock [[("цена"), ("200")]]]

/-- The result the locator returns on `exC2sum`. -/
def resC2sum : SpecificationResult :=
  ⟨("Спецификация"), 0, 1, [⟨1, 1, 1, tableBlock [[("цена"), ("100")]]⟩],
    paraBlock ("Спецификация"), tableBlock [[("цена"), ("100")]]⟩

/-- A heading whose first table comes only six blocks later. -/
def exC9 : List Block :=
  [paraBlock ("Спецификация"), paraBlock ("а"), paraBlock ("б"), paraBlock ("в"),
   paraBlock ("г"), paraBlock ("д"), tableBlock [[("цена"), ("100")]]]

def patEndSum : String := "общая сумма"

/-! ## Characterization of `_find_spec_heading` -/

theorem getLast?_filter_range (p : Nat → Bool) :
    ∀ n i, ((List.range n).filter p).getLast? = some i ↔
      (p i = true ∧ i < n ∧ ∀ j, j < n → p j = true → j ≤ i) := by
  intro n
  induction n with
  | zero => intro i; simp
  | succ m ih =>
    intro i
    rw [List.range_succ, List.filter_append]
    by_cases hp : p m
    · have hfm : List.filter p [m] = [m] := by simp [hp]
      rw [hfm, List.getLast?_concat]
      constructor
      · intro h
        injection h with h
        subst h
        exact ⟨hp, Nat.lt_succ_self m, fun j hj _ => Nat.lt_succ_iff.mp hj⟩
      · rintro ⟨hpi, hilt, hall⟩
        have h1 : m ≤ i := hall m (Nat.lt_succ_self m) hp
        have h2 : i = m := by omega
        rw [h2]
    · have hfm : List.filter p [m] = [] := by simp [hp]
      rw [hfm, List.append_nil, ih i]
      constructor
      · rintro ⟨hpi, hilt, hall⟩
        refine ⟨hpi, by omega, fun j hj hpj => ?_⟩
        by_cases hjm : j = m
        · subst hjm; rw [hpj] at hp; exact absurd rfl hp
        · exact hall j (by omega) hpj
      · rintro ⟨hpi, hilt, hall⟩
        have him : i ≠ m := by
          intro h; subst h; rw [hpi] at hp; exact absurd rfl hp
        exact ⟨hpi, by omega, fun j hj hpj => hall j (by omega) hpj⟩

theorem find_spec_heading_charact (blocks : List Block) (i : Nat) :
    _find_spec_heading blocks = some i ↔
      (isHeadingCandidate blocks i = true ∧ i < blocks.length ∧
        ∀ j, j < blocks.length → isHeadingCandidate blocks j = true → j ≤ i) :=
  getLast?_filter_range (fun idx => isHeadingCandidate blocks idx) blocks.length i

/-! ## Invariants of the forward scan in `_locate_specification` -/

theorem specScan_stops (blocks : List Block) (p : Nat) (pb : Block)
    (hpb : blocks[p]? = some pb) (hpar : pb.type = BlockType.paragraph)
    (hstop : END_PATTERNS.any (fun q => strContains (pyCasefold pb.text) q) = true) :
    ∀ k a st, a ≤ p →
      (∀ t ∈ st.collected, t.index < p) →
      (∀ l, st.last_table = some l → l < p) →
      (∀ t ∈ (specScan blocks (List.range' a k) st).collected, t.index < p) ∧
      (∀ l, (specScan blocks (List.range' a k) st).last_table = some l → l < p) := by
  intro k
  induction k with
  | zero =>
    intro a st _ hcol hlast
    exact ⟨hcol, hlast⟩
  | succ m ih =>
    intro a st ha hcol hlast
    rw [List.range'_succ]
    cases hba : blocks[a]? with
    | none =>
      simp only [specScan, hba]
      exact ⟨hcol, hlast⟩
    | some b =>
      by_cases hap : a = p
      · subst hap
        rw [hpb] at hba
        injection hba with hbb
        subst hbb
        simp only [specScan, hpb, hpar, hstop, if_true]
        exact ⟨hcol, hlast⟩
      · have hap' : a < p := Nat.lt_of_le_of_ne ha hap
        have ha' : a + 1 ≤ p := hap'
        cases hbt : b.type with
        | paragraph =>
          simp only [specScan, hba, hbt]
          by_cases hc1 : END_PATTERNS.any (fun q => strContains (pyCasefold b.text) q)
          · rw [if_pos hc1]
            exact ⟨hcol, hlast⟩
          · rw [if_neg hc1]
            by_cases hc2 : b.text = String.mk []
            · rw [if_pos hc2]
              exact ih (a + 1) st ha' hcol hlast
            · rw [if_neg hc2]
              by_cases hc3 : st.last_table.isSome && _looks_like_heading b.text
              · rw [if_pos hc3]
                exact ⟨hcol, hlast⟩
              · rw [if_neg hc3]
                exact ih (a + 1) st ha' hcol hlast
        | table =>
          simp only [specScan, hba, hbt]
          by_cases hq : locateTableQualifies b
          · rw [if_pos hq]
            refine ih (a + 1)
              ⟨some (st.first_table.getD a), some a,
                st.collected ++ [⟨a, a, a, b⟩]⟩ ha' ?_ ?_
            · intro t ht
              rcases List.mem_append.mp ht with hin | hin
              · exact hcol t hin
              · rcases List.mem_singleton.mp hin with rfl
                exact hap'
            · intro l hl
              injection hl with hl
              subst hl
              exact hap'
          · rw [if_neg hq]
            by_cases hf : st.first_table.isSome
            · rw [if_pos hf]
              exact ⟨hcol, hlast⟩
            · rw [if_neg hf]
              exact ih (a + 1) st ha' hcol hlast

/-- Every table region the scan adds refers to a qualifying table block of the
document, anchored at its own index. -/
def soundRegion (blocks : List Block) (t : TableRegion) : Prop :=
  blocks[t.index]? = some t.block ∧ t.block.type = BlockType.table ∧
    locateTableQualifies t.block = true ∧ t.start_index = t.index ∧ t.end_index = t.index

theorem specScan_collected_sound (blocks : List Block) :
    ∀ k a st, (∀ t ∈ st.collected, soundRegion blocks t) →
      ∀ t ∈ (specScan blocks (List.range' a k) st).collected, soundRegion blocks t := by
  intro k
  induction k with
  | zero =>
    intro a st hst t ht
    exact hst t ht
  | succ m ih =>
    intro a st hst t ht
    rw [List.range'_succ] at ht
    cases hba : blocks[a]? with
    | none =>
      rw [specScan, hba] at ht
      exact hst t ht
    | some b =>
      cases hbt : b.type with
      | paragraph =>
        simp only [specScan, hba, hbt] at ht
        by_cases hc1 : END_PATTERNS.any (fun q => strContains (pyCasefold b.text) q)
        · rw [if_pos hc1] at ht
          exact hst t ht
        · rw [if_neg hc1] at ht
          by_cases hc2 : b.text = String.mk []
          · rw [if_pos hc2] at ht
            exact ih (a + 1) st hst t ht
          · rw [if_neg hc2] at ht
            by_cases hc3 : st.last_table.isSome && _looks_like_heading b.text
            · rw [if_pos hc3] at ht
              exact hst t ht
            · rw [if_neg hc3] at ht
              exact ih (a + 1) st hst t ht
      | table =>
        simp only [specScan, hba, hbt] at ht
        by_cases hq : locateTableQualifies b
        · rw [if_pos hq] at ht
          refine ih (a + 1) _ ?_ t ht
          intro u hu
          rcases List.mem_append.mp hu with hin | hin
          · exact hst u hin
          · rcases List.mem_singleton.mp hin with rfl
            exact ⟨hba, hbt, hq, rfl, rfl⟩
        · rw [if_neg hq] at ht
          by_cases hf : st.first_table.isSome
          · rw [if_pos hf] at ht
            exact hst t ht
          · rw [if_neg hf] at ht
            exact ih (a + 1) st hst t ht

/-- Unpacking `_locate_specification blocks = some r`. -/
theorem locate_shape (blocks : List Block) (r : SpecificationResult)
    (h : _locate_specification blocks = some r) :
    ∃ hidx,
      _find_spec_heading blocks = some hidx ∧ r.start_index = hidx ∧
      (specScan blocks (List.range' (hidx + 1) (blocks.length - (hidx + 1)))
          ⟨none, none, []⟩).last_table = some r.end_index ∧
      r.tables = (specScan blocks (List.range' (hidx + 1) (blocks.length - (hidx + 1)))
          ⟨none, none, []⟩).collected := by
  cases hfind : _find_spec_heading blocks with
  | none => rw [_locate_specification, hfind] at h; exact absurd h (by simp)
  | some hidx =>
    refine ⟨hidx, rfl, ?_⟩
    rw [_locate_specification, hfind] at h
    simp only at h
    set st := specScan blocks (List.range' (hidx + 1) (blocks.length - (hidx + 1)))
      ⟨none, none, []⟩ with hst
    cases hf : st.first_table with
    | none => rw [hf] at h; simp at h
    | some f =>
      cases hl : st.last_table with
      | none => rw [hf, hl] at h; simp at h
      | some last =>
        rw [hf, hl] at h
        simp only at h
        cases hhb : blocks[hidx]? with
        | none => rw [hhb] at h; simp at h
        | some hb =>
          cases hlb : blocks[last]? with
          | none => rw [hhb, hlb] at h; simp at h
          | some lb =>
            rw [hhb, hlb] at h
            simp only at h
            injection h with h
            subst h
            exact ⟨rfl, rfl, rfl⟩

/-! ## Claims C1, C2, C9 -/

/-- C1 (counterexample): in `exC1` both index 0 (a "спецификац" heading,
priority 0 under the claimed rule) and index 2 (a "приложение" heading,
priority 1) qualify as heading candidates with a following table, yet the
locator starts the section at block 2, not block 0: `_find_spec_heading`
returns the last candidate and ignores any priority. -/
theorem claim_C1_counterexample :
    isHeadingCandidate exC1 0 = true ∧
    isHeadingCandidate exC1 2 = true ∧
    strContains (pyCasefold ("Спецификация")) patSpecRoot = true ∧
    strContains (pyCasefold ("Приложение №1")) patSpecRoot = false ∧
    (_locate_specification exC1).map SpecificationResult.start_index = some 2 := by
  decide

/-- C1 (amended): `_find_spec_heading` selects the heading candidate with the
largest block index — the last paragraph matching a specification pattern
with a table among the following five blocks — regardless of which pattern
matched; the selected index is itself a candidate and bounds every candidate
from above. -/
theorem claim_C1_amended (blocks : List Block) (i j : Nat)
    (hfind : _find_spec_heading blocks = some i)
    (hj : j < blocks.length) (hcand : isHeadingCandidate blocks j = true) :
    isHeadingCandidate blocks i = true ∧ i < blocks.length ∧ j ≤ i := by
  obtain ⟨h1, h2, h3⟩ := (find_spec_heading_charact blocks i).mp hfind
  exact ⟨h1, h2, h3 j hj hcand⟩

/-- C1 witness: instantiating the amended claim on `exC1`. -/
theorem claim_C1_amended_witness :
    isHeadingCandidate exC1 2 = true ∧ 2 < exC1.length ∧ 0 ≤ 2 :=
  claim_C1_amended exC1 2 0 (by decide) (by decide) (by decide)

/-- C2 (counterexample): `END_PATTERNS` contains only "общая сумма", so a
paragraph containing "общая цена" does not end the region: in `exC2` the
paragraph at index 2 contains "общая цена", yet the located section ends at
index 3 and includes the table at index 3. -/
theorem claim_C2_counterexample :
    strContains (pyCasefold ("Общая цена: 4700 руб.")) ("общая цена") = true ∧
    exC2[2]? = some (paraBlock ("Общая цена: 4700 руб.")) ∧
    (_locate_specification exC2).map
      (fun r => (r.end_index, r.tables.map TableRegion.index)) = some (3, [1, 3]) := by
  decide

/-- C2 (amended): encountering a paragraph whose case-folded text contains
"общая сумма" (the only END pattern) after the chosen heading ends the
region before that paragraph: no table at or past it is collected and the
bounding end index stays below it. -/
theorem claim_C2_amended (blocks : List Block) (r : SpecificationResult)
    (p : Nat) (pb : Block)
    (hloc : _locate_specification blocks = some r)
    (hpb : blocks[p]? = some pb)
    (hpar : pb.type = BlockType.paragraph)
    (hstop : strContains (pyCasefold pb.text) patEndSum = true)
    (hstart : r.start_index < p) :
    r.end_index < p ∧ ∀ t ∈ r.tables, t.index < p := by
  obtain ⟨hidx, hfind, hs, hlast, htabs⟩ := locate_shape blocks r hloc
  have hstop2 : END_PATTERNS.any (fun q => strContains (pyCasefold pb.text) q) = true := by
    simpa [END_PATTERNS, patEndSum] using hstop
  have hbound := specScan_stops blocks p pb hpb hpar hstop2
    (blocks.length - (hidx + 1)) (hidx + 1) ⟨none, none, []⟩
    (by rw [hs] at hstart; omega) (by intro t ht; simp at ht) (by intro l hl; simp at hl)
  refine ⟨hbound.2 r.end_index hlast, ?_⟩
  intro t ht
  exact hbound.1 t (htabs ▸ ht)

/-- C2 witness: on `exC2sum` the "Общая сумма" paragraph at index 2 bounds
the located section. -/
theorem claim_C2_amended_witness :
    resC2sum.end_index < 2 ∧ ∀ t ∈ resC2sum.tables, t.index < 2 :=
  claim_C2_amended exC2sum resC2sum 2 (paraBlock ("Общая сумма: 4700 руб."))
    (by decide) (by decide) (by decide) (by decide) (by decide)

/-- C9: a paragraph is recorded as a heading candidate only if a table block
occurs among the five blocks following it: a chosen heading always has a
table within its look-ahead window, and a document in which no paragraph
qualifies as a candidate makes `extract_specification` report the
not-found failure. -/
theorem claim_C9_heading_lookahead (blocks : List Block) :
    (∀ i, _find_spec_heading blocks = some i →
      ∃ j b, i + 1 ≤ j ∧ j < min (i + 6) blocks.length ∧ blocks[j]? = some b ∧
        b.type = BlockType.table) ∧
    ((List.range blocks.length).all (fun idx => !isHeadingCandidate blocks idx) = true →
      extract_specification_blocks blocks = Except.error DocumentError.notFound) := by
  constructor
  · intro i hfind
    obtain ⟨hcand, hlen, _⟩ := (find_spec_heading_charact blocks i).mp hfind
    simp only [isHeadingCandidate] at hcand
    cases hbi : blocks[i]? with
    | none => rw [hbi] at hcand; exact absurd hcand (by simp)
    | some b =>
      rw [hbi] at hcand
      simp only at hcand
      have hwin : hasTableWithin5 blocks i = true := Bool.and_elim_right hcand
      rw [hasTableWithin5, List.any_eq_true] at hwin
      obtain ⟨j, hjmem, hj⟩ := hwin
      rw [List.mem_range'_1] at hjmem
      cases hbj : blocks[j]? with
      | none => rw [hbj] at hj; exact absurd hj (by simp)
      | some bj =>
        rw [hbj] at hj
        simp only [beq_iff_eq] at hj
        exact ⟨j, bj, by omega, by omega, hbj, hj⟩
  · intro hall
    have hnil : (List.range blocks.length).filter
        (fun idx => isHeadingCandidate blocks idx) = [] := by
      rw [List.filter_eq_nil_iff]
      intro a ha
      have := List.all_eq_true.mp hall a ha
      simp only [Bool.not_eq_true'] at this
      simp [this]
    have hnone : _find_spec_heading blocks = none := by
      rw [_find_spec_heading, hnil]; rfl
    rw [extract_specification_blocks, _locate_specification, hnone]

/-- C9 witness: in `exC9` the only matching heading is followed by its first
table six blocks later, so extraction reports not-found. -/
theorem claim_C9_witness :
    extract_specification_blocks exC9 = Except.error DocumentError.notFound :=
  (claim_C9_heading_lookahead exC9).2 (by decide)

/-! ## Table classifier (`specification_utils.py`) -/

def HEADER_KEYWORDS : List String :=
  ["наименован", "характерист", "товар", "ед.", "ед.изм", "кол", "кол-во",
   "количество", "цена", "сумм", "стоим", "срок"]

def DATA_KEYWORDS : List String :=
  ["шт", "компл", "услуг", "руб", "eur", "usd", "парт", "лот"]

/-- The literal parts of `_EXCLUDE_ROW_PATTERNS` (each regex is a word
boundary followed by this literal). -/
def EXCLUDE_ROW_PATTERNS : List String :=
  ["итог", "всего", "общая", "сумма договора", "цена"]

/-- `_normalize`: collapse every whitespace run to one space, strip, casefold. -/
def _normalize (s : String) : String :=
  pyCasefold (pyStrip (String.mk (collapseRuns pyWs 1 s.data)))

/-- re.search of a word-boundary-prefixed literal: the literal occurs at a
position whose preceding character (if any) is not a word character. -/
def hasWordBoundedSub (pat : List Char) : Option Char → List Char → Bool
  | prev, [] =>
    (match prev with
     | none => true
     | some d => !pyIsWord d) && pat.isEmpty
  | prev, c :: t =>
    ((match prev with
      | none => true
      | some d => !pyIsWord d) && pat.isPrefixOf (c :: t))
    || hasWordBoundedSub pat (some c) t

/-- re.search for a pattern of the form \b + literal. -/
def searchWordB (pat s : String) : Bool := hasWordBoundedSub pat.data none s.data

/-- Python ch.isdigit count over a string. -/
def countDigits (s : List Char) : Nat := (s.filter pyIsDigit).length

/-- Python ch.isalpha count over a string. -/
def countAlpha (s : List Char) : Nat := (s.filter pyIsAlpha).length

/-- The enumerate(rows[1:], start=1) loop body of `table_has_goods`. -/
def table_has_goods_go (headerBand : Nat) : Nat → List (List String) → Bool
  | _, [] => false
  | index, row :: rest =>
    let combined := joinSpace row
    let normalized := _normalize combined
    if normalized = String.mk [] then table_has_goods_go headerBand (index + 1) rest
    else if EXCLUDE_ROW_PATTERNS.any (fun pat => searchWordB pat normalized) then
      table_has_goods_go headerBand (index + 1) rest
    else if decide (index < headerBand) &&
        HEADER_KEYWORDS.any (fun kw => strContains normalized kw) then
      table_has_goods_go headerBand (index + 1) rest
    else if DATA_KEYWORDS.any (fun kw => strContains normalized kw) then true
    else if decide (3 ≤ countDigits normalized.data) &&
        decide (3 ≤ countAlpha normalized.data) then true
    else if 4 ≤ countDigits normalized.data then
      let normalized_cells :=
        (row.filter (fun cell => cell ≠ String.mk [])).map (fun cell => _normalize cell)
      if normalized_cells.isEmpty then table_has_goods_go headerBand (index + 1) rest
      else if normalized_cells.any (fun cell => decide (2 ≤ countDigits cell.data)) &&
          normalized_cells.any (fun cell => decide (2 ≤ countAlpha cell.data)) then true
      else table_has_goods_go headerBand (index + 1) rest
    else table_has_goods_go headerBand (index + 1) rest

/-- `table_has_goods` from `specification_utils.py`. -/
def table_has_goods (rows : List (List String)) : Bool :=
  table_has_goods_go (min 2 rows.length) 1 (rows.drop 1)

/-- `is_specification_table` from `specification_utils.py`. -/
def is_specification_table (block : Block) : Bool :=
  if block.type ≠ BlockType.table then false
  else
    let rows := block.rows.getD []
    if rows.length < 2 then false
    else
      let header_candidates := (rows.take (min 2 rows.length)).map
        (fun r => _normalize (joinSpace r))
      let header := joinSpace (header_candidates.filter (fun c => c ≠ String.mk []))
      if header = String.mk [] then false
      else
        let has_header_keywords := header_candidates.any
          (fun c => HEADER_KEYWORDS.any (fun kw => strContains c kw))
        if !has_header_keywords then
          if !([("№"), ("#")].any (fun sym => strContains header sym)) then
            if ((rows.headD []).length < 3 ∨
                ((rows.headD []).filter (fun cell => _normalize cell ≠ String.mk [])).length ≤ 1 :
                  Bool) = true then false
            else table_has_goods rows
          else table_has_goods rows
        else table_has_goods rows

/-- Acceptance by `is_specification_table` implies `table_has_goods`. -/
theorem is_specification_table_has_goods (block : Block)
    (h : is_specification_table block = true) :
    table_has_goods (block.rows.getD []) = true := by
  rw [is_specification_table] at h
  simp only at h
  split_ifs at h
  all_goals exact h

/-! ## Claim C3 -/

/-- A located section whose only table has a single row (so it fails
`is_specification_table`). -/
def exC3 : List Block := [paraBlock ("Спецификация"), tableBlock [[("цена"), ("100")]]]

/-- The result the locator returns on `exC3`. -/
def resC3 : SpecificationResult :=
  ⟨("Спецификация"), 0, 1, [⟨1, 1, 1, tableBlock [[("цена"), ("100")]]⟩],
    paraBlock ("Спецификация"), tableBlock [[("цена"), ("100")]]⟩

/-- C3 (counterexample): on `exC3` the locator returns a result whose single
TableRegion refers to a one-row table, which fails `is_specification_table`
(fewer than 2 rows): `_locate_specification` filters tables only by the
inline keyword check, not by the classifier. -/
theorem claim_C3_counterexample :
    (_locate_specification exC3).map
      (fun r => r.tables.map (fun t => is_specification_table t.block)) = some [false] := by
  decide

/-- C3 (amended): every TableRegion of a located result refers to a table
block of the document (at the region's own index, with start and end equal
to it) whose flattened lower-cased text contains one of the keywords
наименован / ед. / кол / цена / сумм — the filter `_locate_specification`
actually applies; passing `is_specification_table` is not guaranteed. -/
theorem claim_C3_amended (blocks : List Block) (r : SpecificationResult)
    (hloc : _locate_specification blocks = some r) :
    ∀ t ∈ r.tables, blocks[t.index]? = some t.block ∧
      t.block.type = BlockType.table ∧ locateTableQualifies t.block = true ∧
      t.start_index = t.index ∧ t.end_index = t.index := by
  obtain ⟨hidx, hfind, hs, hlast, htabs⟩ := locate_shape blocks r hloc
  intro t ht
  have hsound := specScan_collected_sound blocks
    (blocks.length - (hidx + 1)) (hidx + 1) ⟨none, none, []⟩
    (by intro u hu; simp at hu) t (htabs ▸ ht)
  exact hsound

/-- C3 witness: the amended claim instantiated on `exC3` and its table
region at block index 1. -/
theorem claim_C3_amended_witness :
    exC3[(1 : Nat)]? = some (tableBlock [[("цена"), ("100")]]) ∧
      (tableBlock [[("цена"), ("100")]]).type = BlockType.table ∧
      locateTableQualifies (tableBlock [[("цена"), ("100")]]) = true ∧
      (1 : Nat) = 1 ∧ (1 : Nat) = 1 :=
  claim_C3_amended exC3 resC3 (by decide) ⟨1, 1, 1, tableBlock [[("цена"), ("100")]]⟩
    (by decide)

/-! ## Prompt-line conversion (`document_processing.py`) -/

def patTableMark : String := "TABLE: "

/-- `_append_line`: append a prompt line with its originating block mapping
when the value is non-empty. -/
def _append_line (lines : List String) (mapping : List (Nat × Int))
    (block_index : Nat) (value : String) (row_index : Int) :
    List String × List (Nat × Int) :=
  if value ≠ String.mk [] then
    (lines ++ [value], mapping ++ [(block_index, row_index)])
  else (lines, mapping)

/-- The " | ".join over a table row's stripped non-blank cells. -/
def promptRowText (row : List String) : String :=
  String.intercalate (" | ")
    ((row.filter (fun cell => cell ≠ String.mk [] && pyStrip cell ≠ String.mk [])).map pyStrip)

/-- `blocks_to_prompt_lines_with_mapping` from `document_processing.py`. -/
def blocks_to_prompt_lines_with_mapping (blocks : List Block) :
    List String × List (Nat × Int) :=
  blocks.enum.foldl
    (fun acc bi =>
      match bi.2.type with
      | BlockType.paragraph =>
          _append_line acc.1 acc.2 bi.1 (pyStrip bi.2.text) (-1)
      | BlockType.table =>
          (bi.2.rows.getD []).enum.foldl
            (fun acc2 rr =>
              let row_text := promptRowText rr.2
              if row_text = String.mk [] then acc2
              else _append_line acc2.1 acc2.2 bi.1 (patTableMark ++ row_text)
                (Int.ofNat rr.1))
            acc)
    ([], [])

/-- `blocks_to_prompt_lines` discards the mapping. -/
def blocks_to_prompt_lines (blocks : List Block) : List String :=
  (blocks_to_prompt_lines_with_mapping blocks).1

/-- Consistency of one prompt line with its mapping entry. -/
def lineMapOk (blocks : List Block) (p : String × (Nat × Int)) : Prop :=
  ∃ b, blocks[p.2.1]? = some b ∧
    ((b.type = BlockType.table ∧ patTableMark.data.isPrefixOf p.1.data = true ∧ 0 ≤ p.2.2) ∨
     (b.type = BlockType.paragraph ∧ p.2.2 = -1 ∧ p.1 = pyStrip b.text))

/-- The parallel-list invariant of the conversion. -/
def promptInv (blocks : List Block) (acc : List String × List (Nat × Int)) : Prop :=
  acc.1.length = acc.2.length ∧ ∀ p ∈ acc.1.zip acc.2, lineMapOk blocks p

theorem append_line_inv (blocks : List Block) (acc : List String × List (Nat × Int))
    (bidx : Nat) (value : String) (ridx : Int)
    (h : promptInv blocks acc)
    (hok : value ≠ String.mk [] → lineMapOk blocks (value, (bidx, ridx))) :
    promptInv blocks (_append_line acc.1 acc.2 bidx value ridx) := by
  rw [_append_line]
  by_cases hv : value = String.mk []
  · rw [if_neg (by simpa using hv)]
    exact h
  · rw [if_pos hv]
    refine ⟨by simp [h.1], ?_⟩
    intro p hp
    rw [List.zip_append h.1] at hp
    rcases List.mem_append.mp hp with hin | hin
    · exact h.2 p hin
    · rcases List.mem_singleton.mp hin with rfl
      exact hok hv

theorem table_fold_inv (blocks : List Block) (bidx : Nat) (b : Block)
    (hb : blocks[bidx]? = some b) (hbt : b.type = BlockType.table) :
    ∀ (l : List (Nat × List String)) (acc : List String × List (Nat × Int)),
      promptInv blocks acc →
      promptInv blocks (l.foldl
        (fun acc2 rr =>
          let row_text := promptRowText rr.2
          if row_text = String.mk [] then acc2
          else _append_line acc2.1 acc2.2 bidx (patTableMark ++ row_text)
            (Int.ofNat rr.1)) acc) := by
  intro l
  induction l with
  | nil => intro acc h; exact h
  | cons rr rest ih =>
    intro acc h
    rw [List.foldl_cons]
    apply ih
    by_cases hrt : promptRowText rr.2 = String.mk []
    · simp only [hrt, if_pos]
      exact h
    · rw [if_neg (by simpa using hrt)]
      apply append_line_inv blocks acc bidx _ _ h
      intro _
      refine ⟨b, hb, Or.inl ⟨hbt, ?_, by exact Int.ofNat_nonneg rr.1⟩⟩
      show patTableMark.data.isPrefixOf (patTableMark ++ promptRowText rr.2).data = true
      have : (patTableMark ++ promptRowText rr.2).data =
          patTableMark.data ++ (promptRowText rr.2).data := by
        exact String.data_append patTableMark (promptRowText rr.2)
      rw [this]
      exact List.isPrefixOf_iff_prefix.mpr (List.prefix_append _ _)

theorem blocks_fold_inv (blocks : List Block) :
    ∀ (l : List (Nat × Block)) (acc : List String × List (Nat × Int)),
      (∀ bi ∈ l, blocks[bi.1]? = some bi.2) →
      promptInv blocks acc →
      promptInv blocks (l.foldl
        (fun acc bi =>
          match bi.2.type with
          | BlockType.paragraph =>
              _append_line acc.1 acc.2 bi.1 (pyStrip bi.2.text) (-1)
          | BlockType.table =>
              (bi.2.rows.getD []).enum.foldl
                (fun acc2 rr =>
                  let row_text := promptRowText rr.2
                  if row_text = String.mk [] then acc2
                  else _append_line acc2.1 acc2.2 bi.1 (patTableMark ++ row_text)
                    (Int.ofNat rr.1)) acc) acc) := by
  intro l
  induction l with
  | nil => intro acc _ h; exact h
  | cons bi rest ih =>
    intro acc hmem h
    rw [List.foldl_cons]
    apply ih _ (fun x hx => hmem x (List.mem_cons_of_mem bi hx))
    have hbi : blocks[bi.1]? = some bi.2 := hmem bi (List.mem_cons_self bi rest)
    cases hbt : bi.2.type with
    | paragraph =>
      simp only [hbt]
      apply append_line_inv blocks acc bi.1 _ _ h
      intro _
      exact ⟨bi.2, hbi, Or.inr ⟨hbt, rfl, rfl⟩⟩
    | table =>
      simp only [hbt]
      exact table_fold_inv blocks bi.1 bi.2 hbi hbt (bi.2.rows.getD []).enum acc h

theorem blocks_to_prompt_lines_inv (blocks : List Block) :
    promptInv blocks (blocks_to_prompt_lines_with_mapping blocks) := by
  rw [blocks_to_prompt_lines_with_mapping]
  apply blocks_fold_inv blocks blocks.enum ([], [])
  · intro bi hbi
    exact List.mem_enum_iff_getElem?.mp hbi
  · exact ⟨rfl, by intro p hp; simp at hp⟩

/-! ## Claim C5 -/

/-- A paragraph whose text itself starts with the table marker. -/
def exC5 : List Block := [paraBlock ("TABLE: x")]

/-- Blocks for instantiating the amended round-trip claim. -/
def exC5w : List Block :=
  [paraBlock ("Договор поставки"), tableBlock [[("Стул"), ("1500")]]]

/-- C5 (counterexample): a paragraph block whose text is "TABLE: x" produces
the prompt line "TABLE: x", which starts with the table marker yet maps back
to a paragraph block with row index -1 — so a "TABLE: "-prefixed line does
not always map to a table block. -/
theorem claim_C5_counterexample :
    blocks_to_prompt_lines_with_mapping exC5 = ([("TABLE: x")], [(0, -1)]) ∧
    patTableMark.data.isPrefixOf ("TABLE: x").data = true ∧
    (paraBlock ("TABLE: x")).type = BlockType.paragraph := by
  decide

/-- C5 (amended): provided no paragraph block's stripped text starts with
"TABLE: ", every prompt line maps back, through the mapping entry at the
same position, to a block matching the line's form: a "TABLE: "-prefixed
line to a table block with row index at least 0, any other line to a
paragraph block with row index -1. -/
theorem claim_C5_amended (blocks : List Block)
    (hno : ∀ b ∈ blocks, b.type = BlockType.paragraph →
      patTableMark.data.isPrefixOf (pyStrip b.text).data = false)
    (i : Nat) (line : String) (bm : Nat × Int)
    (hline : (blocks_to_prompt_lines_with_mapping blocks).1[i]? = some line)
    (hmap : (blocks_to_prompt_lines_with_mapping blocks).2[i]? = some bm) :
    ∃ b, blocks[bm.1]? = some b ∧
      (patTableMark.data.isPrefixOf line.data = true →
        b.type = BlockType.table ∧ 0 ≤ bm.2) ∧
      (patTableMark.data.isPrefixOf line.data = false →
        b.type = BlockType.paragraph ∧ bm.2 = -1) := by
  obtain ⟨hlen, hall⟩ := blocks_to_prompt_lines_inv blocks
  have hzipeq : ((blocks_to_prompt_lines_with_mapping blocks).1.zip
      (blocks_to_prompt_lines_with_mapping blocks).2)[i]? = some (line, bm) := by
    rw [List.getElem?_zip_eq_some]
    exact ⟨hline, hmap⟩
  have hzip := List.getElem?_mem hzipeq
  obtain ⟨b, hb, hcase⟩ := hall (line, bm) hzip
  change blocks[bm.1]? = some b at hb
  refine ⟨b, hb, ?_, ?_⟩
  · intro hpre
    rcases hcase with ⟨ht, _, hge⟩ | ⟨hp, _, heq⟩
    · exact ⟨ht, hge⟩
    · change line = pyStrip b.text at heq
      have hbmem : b ∈ blocks := List.getElem?_mem hb
      have hfalse := hno b hbmem hp
      rw [← heq] at hfalse
      rw [hpre] at hfalse
      exact absurd hfalse (by simp)
  · intro hpre
    rcases hcase with ⟨_, hpr, _⟩ | ⟨hp, hr, _⟩
    · change patTableMark.data.isPrefixOf line.data = true at hpr
      rw [hpr] at hpre
      exact absurd hpre (by simp)
    · exact ⟨hp, hr⟩

/-- C5 witness: on `exC5w` the table line at position 1 maps to the table
block at block index 1 with row index 0. -/
theorem claim_C5_amended_witness :
    ∃ b, exC5w[(1, (0 : Int)).1]? = some b ∧
      (patTableMark.data.isPrefixOf ("TABLE: Стул | 1500").data = true →
        b.type = BlockType.table ∧ 0 ≤ (1, (0 : Int)).2) ∧
      (patTableMark.data.isPrefixOf ("TABLE: Стул | 1500").data = false →
        b.type = BlockType.paragraph ∧ (1, (0 : Int)).2 = -1) :=
  claim_C5_amended exC5w
    (by intro b hb; fin_cases hb <;> decide) 1 ("TABLE: Стул | 1500") (1, 0)
    (by decide) (by decide)

/-! ## Neural specification detector (`neural_specification.py`)

The JSON payload the LLM returns is modelled post-parse as structured data;
`detect_specification_core` models everything `detect_specification` does
after `json.loads` succeeds.  `Option` models an uncaught IndexError: `none`
never occurs for mappings produced by the prompt-line conversion. -/

def patTablitsa : String := "Таблица"

def patSpecUpper : String := "СПЕЦИФИКАЦИЯ"

def patNotFoundReason : String := "Раздел \x27Спецификация\x27 не найден"

/-- First `n` characters, Python s[:n]. -/
def pyTake (n : Nat) (s : String) : String := String.mk (s.data.take n)

/-- `_coerce_index`: non-integers (`none`) and negatives become -1. -/
def _coerce_index (v : Option Int) : Int :=
  match v with
  | none => -1
  | some i => if 0 ≤ i then i else -1

/-- One decoded anchor object from the model's JSON. -/
structure AnchorPayload where
  line : Option Int
  preview : Option String
  type : Option String
deriving DecidableEq

/-- One decoded table object from the model's JSON. -/
structure TablePayload where
  index : Option Int
  row_count : Option Int
  column_count : Option Int
  preview : Option String
  start : Option AnchorPayload
  stop : Option AnchorPayload
  rows : List (List String)
deriving DecidableEq

/-- The decoded top-level JSON payload of the model reply. -/
structure NeuralPayload where
  found : Bool
  heading : Option String
  reason : Option String
  start : Option AnchorPayload
  stop : Option AnchorPayload
  start_anchor : Option AnchorPayload
  end_anchor : Option AnchorPayload
  tables : List TablePayload
deriving DecidableEq

/-- API-facing anchor (schemas.py). -/
structure SpecificationAnchor where
  index : Int
  type : BlockType
  preview : String
deriving DecidableEq

/-- API-facing table (schemas.py). -/
structure SpecificationTable where
  index : Int
  row_count : Int
  column_count : Int
  preview : String
  start_anchor : SpecificationAnchor
  end_anchor : SpecificationAnchor
  rows : List (List String)
deriving DecidableEq

/-- API-facing response (schemas.py). -/
structure SpecificationResponse where
  heading : String
  start_anchor : SpecificationAnchor
  end_anchor : SpecificationAnchor
  tables : List SpecificationTable
deriving DecidableEq

/-- `_anchor_from_payload`. -/
def _anchor_from_payload (payload : Option AnchorPayload) (fallback_lines : List String)
    (default_type : BlockType) : SpecificationAnchor :=
  let pl := payload.getD ⟨none, none, none⟩
  let line_index := _coerce_index pl.line
  let preview0 := pyStrip (pl.preview.getD (String.mk []))
  let preview :=
    if 0 ≤ line_index ∧ line_index < Int.ofNat fallback_lines.length ∧
        preview0 = String.mk [] then
      pyTake 200 (fallback_lines.getD line_index.toNat (String.mk []))
    else preview0
  let block_type :=
    match pl.type with
    | some t =>
        if t = ("paragraph") then BlockType.paragraph
        else if t = ("table") then BlockType.table
        else default_type
    | none => default_type
  ⟨line_index, block_type, pyTake 200 preview⟩

/-- The prompt-line indices of one block, in order (the
`block_line_positions` dictionary of `_find_tables_in_section`). -/
def linePositions (mapping : List (Nat × Int)) (block_index : Nat) : List Nat :=
  (List.range mapping.length).filter
    (fun i => (mapping[i]?.map Prod.fst) == some block_index)

/-- Maximum row width, max((len(row) for row in rows), default=0). -/
def maxRowLen (rows : List (List String)) : Nat :=
  rows.foldl (fun m r => max m r.length) 0

/-- The per-line loop of `_find_tables_in_section`; the state is the pair
(seen block indices, detected tables). -/
def ftisLoop (blocks : List Block) (mapping : List (Nat × Int)) :
    List Nat → List Nat × List SpecificationTable →
      Option (List Nat × List SpecificationTable)
  | [], st => some st
  | i :: rest, st =>
    match mapping[i]? with
    | none => none
    | some bm =>
      if bm.1 ∈ st.1 then ftisLoop blocks mapping rest st
      else
        match blocks[bm.1]? with
        | none => none
        | some block =>
          if block.type ≠ BlockType.table then ftisLoop blocks mapping rest st
          else
            let rows := block.rows.getD []
            if rows.isEmpty then ftisLoop blocks mapping rest st
            else if !is_specification_table block then ftisLoop blocks mapping rest st
            else
              let line_positions := linePositions mapping bm.1
              if line_positions.isEmpty then ftisLoop blocks mapping rest st
              else
                let preview := pyTake 200 (String.intercalate (" | ") (rows.headD []))
                let end_preview := pyTake 200 (String.intercalate (" | ") (rows.getLastD []))
                let start_anchor : SpecificationAnchor :=
                  ⟨Int.ofNat (line_positions.headD 0), BlockType.table,
                    if preview = String.mk [] then patTablitsa else preview⟩
                let end_anchor : SpecificationAnchor :=
                  ⟨Int.ofNat (line_positions.getLastD 0), BlockType.table,
                    if end_preview = String.mk [] then
                      (if preview = String.mk [] then patTablitsa else preview)
                    else end_preview⟩
                let tbl : SpecificationTable :=
                  ⟨Int.ofNat bm.1, Int.ofNat rows.length, Int.ofNat (maxRowLen rows),
                    (if preview = String.mk [] then patTablitsa else preview),
                    start_anchor, end_anchor, rows⟩
                ftisLoop blocks mapping rest (st.1 ++ [bm.1], st.2 ++ [tbl])

/-- `_find_tables_in_section` from `neural_specification.py`. -/
def _find_tables_in_section (blocks : List Block) (mapping : List (Nat × Int))
    (start_index end_index : Int) : Option (List SpecificationTable) :=
  if mapping.isEmpty then some []
  else
    let total_lines := mapping.length
    let s1 : Int := if start_index < 0 then 0 else start_index
    let e1 : Int :=
      if end_index < 0 ∨ Int.ofNat total_lines ≤ end_index then
        Int.ofNat (total_lines - 1)
      else end_index
    let e2 : Int := if e1 < s1 then Int.ofNat (total_lines - 1) else e1
    let lo : Nat := s1.toNat
    let hi : Nat := min e2.toNat (total_lines - 1)
    (ftisLoop blocks mapping (List.range' lo (hi + 1 - lo)) ([], [])).map Prod.snd

/-- Building a `SpecificationTable` from one model-reported table payload. -/
def payloadToTable (lines : List String) (tp : TablePayload) : SpecificationTable :=
  ⟨_coerce_index tp.index, tp.row_count.getD 0, tp.column_count.getD 0,
    pyTake 200 (tp.preview.getD (String.mk [])),
    _anchor_from_payload tp.start lines BlockType.table,
    _anchor_from_payload tp.stop lines BlockType.table,
    tp.rows⟩

/-- Everything `detect_specification` does after the model reply has been
parsed into a `NeuralPayload`: the found-check, anchor normalization, the
model-table filter, and the override by `_find_tables_in_section`. -/
def detect_specification_core (blocks : List Block) (mapping : List (Nat × Int))
    (lines : List String) (data : NeuralPayload) :
    Option (Except String SpecificationResponse) :=
  if !data.found then
    some (Except.error (if data.reason.getD (String.mk []) = String.mk [] then
      patNotFoundReason else data.reason.getD (String.mk [])))
  else
    let start_anchor := _anchor_from_payload
      (data.start_anchor.orElse (fun _ => data.start)) lines BlockType.paragraph
    let end_anchor := _anchor_from_payload
      (data.end_anchor.orElse (fun _ => data.stop)) lines BlockType.paragraph
    let tables0 := data.tables.map (payloadToTable lines)
    let tables := tables0.filter (fun t => !t.rows.isEmpty && table_has_goods t.rows)
    let heading0 := data.heading.getD (String.mk [])
    let spec : SpecificationResponse :=
      ⟨if heading0 = String.mk [] then patSpecUpper else heading0,
        start_anchor, end_anchor, tables⟩
    match _find_tables_in_section blocks mapping start_anchor.index end_anchor.index with
    | none => none
    | some detected =>
      some (Except.ok (if detected.isEmpty then spec else
        { spec with tables := detected }))

/-! ## Claim C4 -/

theorem ftisLoop_rows_sound (blocks : List Block) (mapping : List (Nat × Int)) :
    ∀ (l : List Nat) (st st2 : List Nat × List SpecificationTable),
      ftisLoop blocks mapping l st = some st2 →
      (∀ t ∈ st.2, t.rows ≠ [] ∧ table_has_goods t.rows = true) →
      ∀ t ∈ st2.2, t.rows ≠ [] ∧ table_has_goods t.rows = true := by
  intro l
  induction l with
  | nil =>
    intro st st2 h hst
    rw [ftisLoop] at h
    injection h with h
    subst h
    exact hst
  | cons i rest ih =>
    intro st st2 h hst
    rw [ftisLoop] at h
    cases hmi : mapping[i]? with
    | none => rw [hmi] at h; exact absurd h (by simp)
    | some bm =>
      rw [hmi] at h
      simp only at h
      by_cases hseen : bm.1 ∈ st.1
      · rw [if_pos hseen] at h
        exact ih st st2 h hst
      · rw [if_neg hseen] at h
        cases hbl : blocks[bm.1]? with
        | none => rw [hbl] at h; exact absurd h (by simp)
        | some block =>
          rw [hbl] at h
          simp only at h
          by_cases htype : block.type ≠ BlockType.table
          · rw [if_pos htype] at h
            exact ih st st2 h hst
          · rw [if_neg htype] at h
            by_cases hrows : (block.rows.getD []).isEmpty
            · rw [if_pos hrows] at h
              exact ih st st2 h hst
            · rw [if_neg hrows] at h
              by_cases hspec : !is_specification_table block
              · rw [if_pos hspec] at h
                exact ih st st2 h hst
              · rw [if_neg hspec] at h
                by_cases hlp : (linePositions mapping bm.1).isEmpty
                · rw [if_pos hlp] at h
                  exact ih st st2 h hst
                · rw [if_neg hlp] at h
                  refine ih _ st2 h ?_
                  intro t ht
                  rcases List.mem_append.mp ht with hin | hin
                  · exact hst t hin
                  · rcases List.mem_singleton.mp hin with rfl
                    constructor
                    · intro hnil
                      have hnil2 : block.rows.getD [] = [] := hnil
                      rw [hnil2] at hrows
                      exact hrows rfl
                    · have hspec2 : is_specification_table block = true := by
                        rcases Bool.eq_false_or_eq_true (is_specification_table block)
                          with ht2 | hf
                        · exact ht2
                        · rw [hf] at hspec; exact absurd rfl hspec
                      exact is_specification_table_has_goods block hspec2

/-- C4: every table of a response accepted by the neural detector has
non-empty rows and passes `table_has_goods` — both when the model-reported
tables survive the final filter and when the re-derived tables replace
them. -/
theorem claim_C4_response_tables_have_goods (blocks : List Block)
    (mapping : List (Nat × Int)) (lines : List String) (data : NeuralPayload)
    (resp : SpecificationResponse)
    (h : detect_specification_core blocks mapping lines data = some (Except.ok resp)) :
    ∀ t ∈ resp.tables, t.rows ≠ [] ∧ table_has_goods t.rows = true := by
  rw [detect_specification_core] at h
  by_cases hfound : data.found
  · rw [hfound] at h
    rw [if_neg (by simp)] at h
    simp only at h
    split at h
    · exact absurd h (by simp)
    · rename_i detected heq
      injection h with h
      injection h with h
      by_cases hd : detected.isEmpty
      · rw [if_pos hd] at h
        subst h
        intro t ht
        have := List.mem_filter.mp ht
        have hcond := this.2
        simp only [Bool.and_eq_true, Bool.not_eq_true'] at hcond
        refine ⟨?_, hcond.2⟩
        intro hnil
        rw [hnil] at hcond
        exact absurd hcond.1 (by simp)
      · rw [if_neg hd] at h
        subst h
        intro t ht
        simp only at ht
        rw [_find_tables_in_section] at heq
        by_cases hme : mapping.isEmpty
        · rw [if_pos hme] at heq
          injection heq with heq
          rw [← heq] at hd
          exact absurd rfl hd
        · rw [if_neg hme] at heq
          simp only at heq
          rcases Option.map_eq_some'.mp heq with ⟨st2, hloop, hsnd⟩
          rw [← hsnd] at ht
          exact ftisLoop_rows_sound blocks mapping _ ([], []) st2 hloop
            (by intro u hu; simp at hu) t ht
  · rw [eq_false_of_ne_true hfound] at h
    rw [if_pos (by simp)] at h
    exact absurd h (by simp)

/-- A model payload carrying one well-formed goods table. -/
def dataC4 : NeuralPayload :=
  ⟨true, some ("Спецификация №1"), none, none, none, none, none,
   [⟨some 0, some 2, some 3, some ("Наименование"), none, none,
     [[("Наименование"), ("Кол-во")], [("Стул"), ("10"), ("шт")]]⟩]⟩

/-- The table the detector builds from `dataC4`. -/
def tblC4 : SpecificationTable :=
  ⟨0, 2, 3, ("Наименование"),
    ⟨-1, BlockType.table, String.mk []⟩, ⟨-1, BlockType.table, String.mk []⟩,
    [[("Наименование"), ("Кол-во")], [("Стул"), ("10"), ("шт")]]⟩

/-- The response the detector returns on `dataC4` over an empty document. -/
def respC4 : SpecificationResponse :=
  ⟨("Спецификация №1"),
    ⟨-1, BlockType.paragraph, String.mk []⟩, ⟨-1, BlockType.paragraph, String.mk []⟩,
    [tblC4]⟩

/-- C4 witness: instantiating the invariant on the accepted reply `dataC4`. -/
theorem claim_C4_witness : tblC4.rows ≠ [] ∧ table_has_goods tblC4.rows = true :=
  claim_C4_response_tables_have_goods [] [] [] dataC4 respC4 (by rfl) tblC4
    (List.mem_singleton.mpr rfl)

/-! ## Claim C10 -/

theorem ftisLoop_total (blocks : List Block) (mapping : List (Nat × Int))
    (hvalid : ∀ p ∈ mapping, p.1 < blocks.length) :
    ∀ (l : List Nat) (st : List Nat × List SpecificationTable),
      (∀ i ∈ l, i < mapping.length) → (ftisLoop blocks mapping l st).isSome := by
  intro l
  induction l with
  | nil => intro st _; rfl
  | cons i rest ih =>
    intro st hl
    have hi : i < mapping.length := hl i (List.mem_cons_self i rest)
    have hrest : ∀ j ∈ rest, j < mapping.length :=
      fun j hj => hl j (List.mem_cons_of_mem i hj)
    have hmi : mapping[i]? = some mapping[i] := List.getElem?_eq_getElem hi
    have hbm : (mapping[i]).1 < blocks.length := hvalid mapping[i] (List.getElem_mem hi)
    have hbl : blocks[(mapping[i]).1]? = some blocks[(mapping[i]).1] :=
      List.getElem?_eq_getElem hbm
    rw [ftisLoop, hmi]
    simp only
    by_cases hseen : (mapping[i]).1 ∈ st.1
    · rw [if_pos hseen]
      exact ih st hrest
    · rw [if_neg hseen]
      rw [hbl]
      simp only
      by_cases htype : blocks[(mapping[i]).1].type ≠ BlockType.table
      · rw [if_pos htype]; exact ih st hrest
      · rw [if_neg htype]
        by_cases hrows : (blocks[(mapping[i]).1].rows.getD []).isEmpty
        · rw [if_pos hrows]; exact ih st hrest
        · rw [if_neg hrows]
          by_cases hspec : !is_specification_table blocks[(mapping[i]).1]
          · rw [if_pos hspec]; exact ih st hrest
          · rw [if_neg hspec]
            by_cases hlp : (linePositions mapping (mapping[i]).1).isEmpty
            · rw [if_pos hlp]; exact ih st hrest
            · rw [if_neg hlp]
              exact ih _ hrest

/-- A block index the re-derivation loop records when reached. -/
def ftisQualifies (blocks : List Block) (b : Nat) : Prop :=
  ∃ block, blocks[b]? = some block ∧ block.type = BlockType.table ∧
    (block.rows.getD []).isEmpty = false ∧ is_specification_table block = true

theorem ftisLoop_seen_mono (blocks : List Block) (mapping : List (Nat × Int)) :
    ∀ (l : List Nat) (st st2 : List Nat × List SpecificationTable),
      ftisLoop blocks mapping l st = some st2 → ∀ b ∈ st.1, b ∈ st2.1 := by
  intro l
  induction l with
  | nil =>
    intro st st2 h b hb
    rw [ftisLoop] at h
    injection h with h
    subst h
    exact hb
  | cons i rest ih =>
    intro st st2 h b hb
    rw [ftisLoop] at h
    cases hmi : mapping[i]? with
    | none => rw [hmi] at h; exact absurd h (by simp)
    | some bm =>
      rw [hmi] at h
      simp only at h
      by_cases hseen : bm.1 ∈ st.1
      · rw [if_pos hseen] at h; exact ih st st2 h b hb
      · rw [if_neg hseen] at h
        cases hbl : blocks[bm.1]? with
        | none => rw [hbl] at h; exact absurd h (by simp)
        | some block =>
          rw [hbl] at h
          simp only at h
          by_cases htype : block.type ≠ BlockType.table
          · rw [if_pos htype] at h; exact ih st st2 h b hb
          · rw [if_neg htype] at h
            by_cases hrows : (block.rows.getD []).isEmpty
            · rw [if_pos hrows] at h; exact ih st st2 h b hb
            · rw [if_neg hrows] at h
              by_cases hspec : !is_specification_table block
              · rw [if_pos hspec] at h; exact ih st st2 h b hb
              · rw [if_neg hspec] at h
                by_cases hlp : (linePositions mapping bm.1).isEmpty
                · rw [if_pos hlp] at h; exact ih st st2 h b hb
                · rw [if_neg hlp] at h
                  exact ih _ st2 h b (List.mem_append_left _ hb)

theorem ftisLoop_complete (blocks : List Block) (mapping : List (Nat × Int)) :
    ∀ (l : List Nat) (st st2 : List Nat × List SpecificationTable),
      ftisLoop blocks mapping l st = some st2 →
      ∀ i ∈ l, ∀ bm, mapping[i]? = some bm → ftisQualifies blocks bm.1 →
        bm.1 ∈ st2.1 := by
  intro l
  induction l with
  | nil => intro st st2 _ i hi; exact absurd hi (by simp)
  | cons j rest ih =>
    intro st st2 h i hi bm hmi hq
    rw [ftisLoop] at h
    cases hmj : mapping[j]? with
    | none => rw [hmj] at h; exact absurd h (by simp)
    | some bmj =>
      rw [hmj] at h
      simp only at h
      rcases List.mem_cons.mp hi with rfl | hirest
      · rw [hmi] at hmj
        injection hmj with hmj
        subst hmj
        obtain ⟨block, hbl, htyp, hrows, hspec⟩ := hq
        by_cases hseen : bm.1 ∈ st.1
        · rw [if_pos hseen] at h
          exact ftisLoop_seen_mono blocks mapping rest st st2 h bm.1 hseen
        · rw [if_neg hseen] at h
          rw [hbl] at h
          simp only at h
          rw [if_neg (by rw [htyp]; exact fun hcon => hcon rfl)] at h
          rw [if_neg (by rw [hrows]; exact Bool.false_ne_true)] at h
          rw [if_neg (by rw [hspec]; simp)] at h
          have hlp : (linePositions mapping bm.1).isEmpty = false := by
            have hilen : i < mapping.length := by
              rcases List.getElem?_eq_some.mp hmi with ⟨hlt, _⟩
              exact hlt
            have himem : i ∈ linePositions mapping bm.1 := by
              rw [linePositions, List.mem_filter]
              refine ⟨List.mem_range.mpr hilen, ?_⟩
              rw [hmi]
              simp
            cases hval : linePositions mapping bm.1 with
            | nil => rw [hval] at himem; exact absurd himem (by simp)
            | cons x xs => rfl
          rw [if_neg (by rw [hlp]; exact Bool.false_ne_true)] at h
          refine ftisLoop_seen_mono blocks mapping rest _ st2 h bm.1 ?_
          exact List.mem_append_right _ (List.mem_singleton.mpr rfl)
      · by_cases hseen : bmj.1 ∈ st.1
        · rw [if_pos hseen] at h
          exact ih st st2 h i hirest bm hmi hq
        · rw [if_neg hseen] at h
          cases hbl : blocks[bmj.1]? with
          | none => rw [hbl] at h; exact absurd h (by simp)
          | some block =>
            rw [hbl] at h
            simp only at h
            by_cases htype : block.type ≠ BlockType.table
            · rw [if_pos htype] at h; exact ih st st2 h i hirest bm hmi hq
            · rw [if_neg htype] at h
              by_cases hrows : (block.rows.getD []).isEmpty
              · rw [if_pos hrows] at h; exact ih st st2 h i hirest bm hmi hq
              · rw [if_neg hrows] at h
                by_cases hspec : !is_specification_table block
                · rw [if_pos hspec] at h; exact ih st st2 h i hirest bm hmi hq
                · rw [if_neg hspec] at h
                  by_cases hlp : (linePositions mapping bmj.1).isEmpty
                  · rw [if_pos hlp] at h; exact ih st st2 h i hirest bm hmi hq
                  · rw [if_neg hlp] at h
                    exact ih _ st2 h i hirest bm hmi hq

theorem ftisLoop_seen_detected (blocks : List Block) (mapping : List (Nat × Int)) :
    ∀ (l : List Nat) (st st2 : List Nat × List SpecificationTable),
      ftisLoop blocks mapping l st = some st2 →
      (∀ b ∈ st.1, ∃ t ∈ st.2, t.index = Int.ofNat b) →
      ∀ b ∈ st2.1, ∃ t ∈ st2.2, t.index = Int.ofNat b := by
  intro l
  induction l with
  | nil =>
    intro st st2 h hst
    rw [ftisLoop] at h
    injection h with h
    subst h
    exact hst
  | cons i rest ih =>
    intro st st2 h hst
    rw [ftisLoop] at h
    cases hmi : mapping[i]? with
    | none => rw [hmi] at h; exact absurd h (by simp)
    | some bm =>
      rw [hmi] at h
      simp only at h
      by_cases hseen : bm.1 ∈ st.1
      · rw [if_pos hseen] at h; exact ih st st2 h hst
      · rw [if_neg hseen] at h
        cases hbl : blocks[bm.1]? with
        | none => rw [hbl] at h; exact absurd h (by simp)
        | some block =>
          rw [hbl] at h
          simp only at h
          by_cases htype : block.type ≠ BlockType.table
          · rw [if_pos htype] at h; exact ih st st2 h hst
          · rw [if_neg htype] at h
            by_cases hrows : (block.rows.getD []).isEmpty
            · rw [if_pos hrows] at h; exact ih st st2 h hst
            · rw [if_neg hrows] at h
              by_cases hspec : !is_specification_table block
              · rw [if_pos hspec] at h; exact ih st st2 h hst
              · rw [if_neg hspec] at h
                by_cases hlp : (linePositions mapping bm.1).isEmpty
                · rw [if_pos hlp] at h; exact ih st st2 h hst
                · rw [if_neg hlp] at h
                  refine ih _ st2 h ?_
                  intro b hb
                  rcases List.mem_append.mp hb with hin | hin
                  · obtain ⟨t, ht, hti⟩ := hst b hin
                    exact ⟨t, List.mem_append_left _ ht, hti⟩
                  · rcases List.mem_singleton.mp hin with rfl
                    refine ⟨_, List.mem_append_right _ (List.mem_singleton.mpr rfl), rfl⟩

theorem optmap_isSome (x : Option (List Nat × List SpecificationTable))
    (hx : x.isSome = true) : (x.map Prod.snd).isSome = true := by
  cases x with
  | none => exact absurd hx (by simp)
  | some v => rfl

/-- Normal form of the fully-unresolved call. -/
theorem find_tables_neg_form (blocks : List Block) (mapping : List (Nat × Int))
    (hne : mapping ≠ []) :
    _find_tables_in_section blocks mapping (-1) (-1) =
      (ftisLoop blocks mapping (List.range' 0 mapping.length) ([], [])).map Prod.snd := by
  have htot : 1 ≤ mapping.length := List.length_pos.mpr hne
  rw [_find_tables_in_section]
  split_ifs with h1 <;> simp_all

/-- C10: `_find_tables_in_section` is total over arbitrary anchor indices
(for a non-empty mapping whose block indices are in range): it always
returns a value rather than indexing out of bounds, it treats both anchors
being -1 the same as the explicit full range (0, last line), and in that
case every distinct qualifying table block reachable from the mapping
appears among the detected tables. -/
theorem claim_C10_find_tables_total (blocks : List Block) (mapping : List (Nat × Int))
    (hne : mapping ≠ [])
    (hvalid : ∀ p ∈ mapping, p.1 < blocks.length) :
    (∀ s e : Int, (_find_tables_in_section blocks mapping s e).isSome = true) ∧
    (_find_tables_in_section blocks mapping (-1) (-1) =
      _find_tables_in_section blocks mapping 0 (Int.ofNat (mapping.length - 1))) ∧
    (∀ (i : Nat) (bm : Nat × Int), mapping[i]? = some bm →
      ftisQualifies blocks bm.1 →
      ∃ dts, _find_tables_in_section blocks mapping (-1) (-1) = some dts ∧
        ∃ t ∈ dts, t.index = Int.ofNat bm.1) := by
  have htot : 1 ≤ mapping.length := List.length_pos.mpr hne
  refine ⟨?_, ?_, ?_⟩
  · intro s e
    simp only [_find_tables_in_section]
    by_cases h1 : mapping.isEmpty
    · rw [if_pos h1]; rfl
    · rw [if_neg h1]
      apply optmap_isSome
      apply ftisLoop_total blocks mapping hvalid
      intro i hi
      rw [List.mem_range'_1] at hi
      omega
  · rw [_find_tables_in_section, _find_tables_in_section]
    split_ifs with h1 <;> simp_all
  · intro i bm hmi hq
    have hform := find_tables_neg_form blocks mapping hne
    obtain ⟨hilen, -⟩ := List.getElem?_eq_some.mp hmi
    obtain ⟨st2, hloop⟩ := Option.isSome_iff_exists.mp
      (ftisLoop_total blocks mapping hvalid (List.range' 0 mapping.length) ([], [])
        (by intro j hj; rw [List.mem_range'_1] at hj; omega))
    have himem : i ∈ List.range' 0 mapping.length := by
      rw [List.mem_range'_1]
      omega
    have hseen := ftisLoop_complete blocks mapping _ _ _ hloop i himem bm hmi hq
    have hdet := ftisLoop_seen_detected blocks mapping _ _ _ hloop
      (by intro b hb; exact absurd hb (by simp)) bm.1 hseen
    refine ⟨st2.2, ?_, hdet⟩
    rw [hform, hloop]
    rfl

/-- Blocks and mapping for instantiating the totality claim. -/
def exC10blocks : List Block :=
  [tableBlock [[("Наименование"), ("Кол")], [("Стул"), ("10"), ("шт")]]]

/-- A two-line mapping pointing into `exC10blocks`. -/
def exC10map : List (Nat × Int) := [(0, 0), (0, 1)]

/-- C10 witness: out-of-order anchors (5, -7) still yield a result. -/
theorem claim_C10_witness :
    (_find_tables_in_section exC10blocks exC10map 5 (-7)).isSome = true :=
  (claim_C10_find_tables_total exC10blocks exC10map (by decide)
    (by intro p hp; fin_cases hp <;> decide)).1 5 (-7)

/-! ## Raw-text specification extractor (`services/specification_extractor.py`) -/

/-- Python str.splitlines (handling \n, \r\n and \r). -/
def splitlinesGo : List Char → List Char → List (List Char)
  | acc, [] => if acc.isEmpty then [] else [acc.reverse]
  | acc, '\r' :: '\n' :: rest => acc.reverse :: splitlinesGo [] rest
  | acc, '\r' :: rest => acc.reverse :: splitlinesGo [] rest
  | acc, '\n' :: rest => acc.reverse :: splitlinesGo [] rest
  | acc, c :: rest => splitlinesGo (c :: acc) rest

/-- str.splitlines: note "a\n".splitlines() == ["a"], "".splitlines() == []. -/
def pySplitlines (s : List Char) : List (List Char) := splitlinesGo [] s

/-- STOP_WORDS of `SpecificationExtractor`. -/
def STOP_WORDS : List String :=
  ["подпис", "реквизит", "условия", "порядок", "гарантии", "оплата",
   "ответственность", "заключительн"]

/-- `_locate_start`: index of the first line matching "спецификац"
case-insensitively. -/
def locateStartGo : Nat → List String → Option Nat
  | _, [] => none
  | idx, l :: rest =>
    if strContains (pyCasefold l) patSpecRoot then some idx
    else locateStartGo (idx + 1) rest

def _locate_start (lines : List String) : Option Nat := locateStartGo 0 lines

/-- The loop body of `_locate_end` over the remaining indices. -/
def locateEndGo (lines : List String) (start_index : Nat) : List Nat → Nat
  | [] => lines.length
  | idx :: rest =>
    let current := pyCasefold (pyStrip (lines.getD idx (String.mk [])))
    if current = String.mk [] then locateEndGo lines start_index rest
    else if STOP_WORDS.any (fun w => strContains current w) &&
        decide (5 < idx - start_index) then idx
    else locateEndGo lines start_index rest

/-- `_locate_end`: first stop-word line more than 5 lines past the start. -/
def _locate_end (lines : List String) (start_index : Nat) : Nat :=
  locateEndGo lines start_index
    (List.range' (start_index + 1) (lines.length - (start_index + 1)))

/-- `_heuristic_extract`: the joined, trimmed block of lines between the
located start (inclusive) and end (exclusive). -/
def _heuristic_extract (text : String) : String :=
  let lines := (pySplitlines text.data).map (fun l => String.mk (trimRight l))
  match _locate_start lines with
  | none => String.mk []
  | some start_index =>
      let end_index := _locate_end lines start_index
      pyStrip (String.intercalate (String.mk ['\n'])
        ((lines.drop start_index).take (end_index - start_index)))

/-- Splitter state machine for the regex \s\x7b3,\x7d|\t (runs of 3+ whitespace
characters, else a single tab); the fuel always suffices since it starts at
the list length and every step consumes at least one character. -/
def reSplit3Go : Nat → List Char → List Char → List (List Char)
  | 0, acc, _ => [acc.reverse]
  | Nat.succ fuel, acc, s =>
    match s with
    | [] => [acc.reverse]
    | c :: rest =>
      if pyWs c && decide (2 ≤ (rest.takeWhile pyWs).length) then
        acc.reverse :: reSplit3Go fuel [] (rest.dropWhile pyWs)
      else if c = '\t' then acc.reverse :: reSplit3Go fuel [] rest
      else reSplit3Go fuel (c :: acc) rest

/-- re.split over 3+-whitespace runs or tabs. -/
def reSplitWsOrTab (s : List Char) : List String :=
  (reSplit3Go s.length [] s).map String.mk

/-- Split on a separator character (str.split("|")). -/
def splitCharGo (sep : Char) : List Char → List Char → List (List Char)
  | acc, [] => [acc.reverse]
  | acc, c :: rest =>
    if c = sep then acc.reverse :: splitCharGo sep [] rest
    else splitCharGo sep (c :: acc) rest

def splitOnChar (sep : Char) (s : List Char) : List String :=
  (splitCharGo sep [] s).map String.mk

/-- `_extract_table_rows`: table-like rows of the heuristic block. -/
def _extract_table_rows (block : String) : List (List String) :=
  (pySplitlines block.data).filterMap (fun lraw =>
    let cleaned := pyStrip (String.mk lraw)
    if cleaned = String.mk [] then none
    else
      let cells :=
        if strContains cleaned (String.mk ['|']) then
          ((splitOnChar '|' cleaned.data).map pyStrip).filter (· ≠ String.mk [])
        else
          ((reSplitWsOrTab cleaned.data).map pyStrip).filter (· ≠ String.mk [])
      if decide (2 ≤ cells.length) && decide (2 ≤ countDigits cleaned.data) then
        some cells
      else none)

/-- Normalized result of the extraction service. -/
structure SpecificationExtractionResult where
  specification_text : String
  table_rows : List (List String)
  used_fallback : Bool
  raw_model_output : Option String
  reasoning : Option String
deriving DecidableEq

/-- The parsed JSON payload of a successful model reply
(`_parse_model_response` output), as consumed by `extract_specification`:
the coerced specification_sections list, the tables and the notes field. -/
structure ModelPayload where
  sections : List String
  tables : List (List (List String))
  notes : Option String
deriving DecidableEq

/-- `_flatten_tables`: strip cells, drop blank cells, drop empty rows. -/
def _flatten_tables (tables : List (List (List String))) : List (List String) :=
  ((tables.map (fun t => t.map
    (fun row => (row.map pyStrip).filter (· ≠ String.mk [])))).flatten).filter (· ≠ [])

/-- The failures `extract_specification` raises. -/
inductive ExtractErr where
  | emptyContract : ExtractErr
  | fallbackDisabled : ExtractErr
deriving DecidableEq

/-- `SpecificationExtractor.extract_specification`.  The LLM generate call is
modelled by `llm`: `none` is a raised `OllamaError`, `some (raw, none)` a
reply that fails JSON parsing or lacks usable sections, `some (raw, some p)`
a parsed payload.  The returned Bool records whether the generate call was
reached (the model branch entered). -/
def extract_specification (enableFallback : Bool)
    (llm : Option (String × Option ModelPayload)) (text : String)
    (preferModel : Bool) :
    Except ExtractErr SpecificationExtractionResult × Bool :=
  let t := pyStrip text
  if t = String.mk [] then (Except.error ExtractErr.emptyContract, false)
  else
    let modelOutput : Option String := if preferModel then llm.map Prod.fst else none
    let attempt : Option SpecificationExtractionResult :=
      if preferModel then
        match llm with
        | some (raw, some parsed) =>
            let cleaned_sections := (parsed.sections.map pyStrip).filter
              (· ≠ String.mk [])
            if cleaned_sections ≠ [] then
              some ⟨String.intercalate (String.mk ['\n', '\n']) cleaned_sections,
                _flatten_tables parsed.tables, false, some raw, parsed.notes⟩
            else none
        | _ => none
      else none
    match attempt with
    | some r => (Except.ok r, preferModel)
    | none =>
      if !enableFallback then (Except.error ExtractErr.fallbackDisabled, preferModel)
      else
        let block := _heuristic_extract t
        (Except.ok ⟨block, _extract_table_rows block, true, modelOutput, none⟩,
          preferModel)

/-! ## Claims C7 and C8 -/

/-- The literal contract text of the fallback test scenario. -/
def contractC7 : String := "ДОГОВОР ПОСТАВКИ\nПриложение №1 Спецификация\n№   Наименование   Кол-во   Цена\n1   Стул офисный   10       1500\n2   Стол рабочий   5        3200\nПодписи сторон\n"

/-- The result the extractor produces on `contractC7` without the model. -/
def resC7 : SpecificationExtractionResult :=
  ⟨"Приложение №1 Спецификация\n№   Наименование   Кол-во   Цена\n1   Стул офисный   10       1500\n2   Стол рабочий   5        3200\nПодписи сторон",
   [[("1"), ("Стул офисный"), ("10"), ("1500")],
    [("2"), ("Стол рабочий"), ("5"), ("3200")]],
   true, none, none⟩

/-- C7: on the literal test contract, `extract_specification` with
prefer_model disabled (whatever the LLM stub would return) falls back to
the heuristic: `used_fallback` is true, the extracted block contains
"Стол рабочий", and some parsed row's joined cells contain "Стул". -/
theorem claim_C7_heuristic_literal (llm : Option (String × Option ModelPayload)) :
    ∃ r, extract_specification true llm contractC7 false = (Except.ok r, false) ∧
      r.used_fallback = true ∧
      strContains r.specification_text ("Стол рабочий") = true ∧
      r.table_rows.any (fun row => strContains (joinSpace row) ("Стул")) = true := by
  refine ⟨resC7, rfl, rfl, by decide, by decide⟩

theorem trimRight_all_ws (s : List Char) (h : ∀ c ∈ s, pyWs c = true) :
    trimRight s = [] := by
  induction s with
  | nil => rfl
  | cons c rest ih =>
    have hc : pyWs c = true := h c (List.mem_cons_self c rest)
    have hrest : trimRight rest = [] := ih (fun d hd => h d (List.mem_cons_of_mem c hd))
    rw [trimRight_cons_nil c rest hrest, if_pos hc]

/-- C8: whitespace-only input is rejected with the invalid-input failure
before the model branch is reached, for either value of prefer_model —
the returned flag records that the LLM generate call was never made. -/
theorem claim_C8_blank_rejected (text : String)
    (hblank : ∀ c ∈ text.data, pyWs c = true) (preferModel enableFallback : Bool)
    (llm : Option (String × Option ModelPayload)) :
    extract_specification enableFallback llm text preferModel =
      (Except.error ExtractErr.emptyContract, false) := by
  have ht : pyStrip text = String.mk [] := by
    rw [pyStrip, pyStripL, trimRight_all_ws text.data hblank]
    rfl
  simp [extract_specification, ht]

/-- C8 witness: the three-space input, with both prefer_model values. -/
theorem claim_C8_witness :
    extract_specification true none ("   ") true =
      (Except.error ExtractErr.emptyContract, false) ∧
    extract_specification true none ("   ") false =
      (Except.error ExtractErr.emptyContract, false) :=
  ⟨claim_C8_blank_rejected ("   ") (by decide) true true none,
   claim_C8_blank_rejected ("   ") (by decide) false true none⟩
